import Mathlib

/-!
Verification development for the feedbuilder repository (relaytools/feedbuilder).

The Go source is shallowly embedded: strings are lists of characters,
Go maps are association lists (with an explicit enumeration order where
the source iterates over an unordered map), and the stateful loops of
`greedySelectAndAssignN` and the NIP-66 liveness fusion are explicit
folds or fuelled recursion over a state record.

Conventions:
* `Str` is `List Char`; Go string functions (TrimSpace, ToLower,
  TrimPrefix, TrimSuffix, Contains, Fields etc.) are modelled on lists.
* `relayurlNew` models `internal/relayurl.New` together with the part of
  the Go standard library `net/url.Parse` that it exercises.  The model
  is exact on the sub-domain it accepts: inputs whose characters all lie
  in a conservative whitelist (no percent escapes, no characters that
  `net/url` would itself percent-encode or reject, no bracketed IPv6
  hosts, ASCII only).  On that sub-domain `url.Parse` is a plain
  scheme/authority/path split and `URL.String` is the identity
  reconstruction, which is what the model implements.
* Machine integers are modelled as `Int`/`Nat`; none of the embedded
  code can overflow the 64-bit range on the inputs considered.
-/

/-- Go strings, modelled as lists of characters. -/
abbrev Str := List Char

/-- Byte-wise lexicographic comparison of Go strings (the order used by
`sort.Strings`).  On UTF-8 text byte order and code-point order agree, so
a code-point comparison is faithful. -/
def strLe : Str → Str → Bool
  | [], _ => true
  | _ :: _, [] => false
  | a :: as, b :: bs => if a < b then true else if b < a then false else strLe as bs

/-- Propositional form of `strLe`, used with `List.insertionSort`. -/
def StrLe : Str → Str → Prop := fun a b => strLe a b = true

instance : DecidableRel StrLe := fun a b => by unfold StrLe; infer_instance

/-- Ascending sort of a list of strings, modelling `sort.Strings`. -/
def sortStrs (l : List Str) : List Str := List.insertionSort StrLe l

/-- Model of `uniqueSorted` (STRFRY_QUICKSTART.md embedded source): put the
elements into a set, extract and sort, i.e. sort the distinct elements. -/
def uniqueSorted (l : List Str) : List Str := sortStrs l.dedup

/-- Model of `strings.TrimSpace`, left side. -/
def trimL (s : Str) : Str := s.dropWhile Char.isWhitespace

/-- Model of `strings.TrimSpace`, right side. -/
def trimR (s : Str) : Str := (s.reverse.dropWhile Char.isWhitespace).reverse

/-- Model of `strings.TrimSpace` (both ends; the Go function trims the
Unicode white-space class, of which the ASCII part is what matters here). -/
def trimS (s : Str) : Str := trimR (trimL s)

/-- Model of `strings.ToLower` restricted to ASCII. -/
def lowerStr (s : Str) : Str := s.map Char.toLower

/-- Model of `strings.TrimSuffix(s, "/")`: remove one trailing slash. -/
def trimSlash (s : Str) : Str := if s.getLast? = some '/' then s.dropLast else s

/-- Model of `strings.TrimPrefix(s, p)`. -/
def trimPre (p s : Str) : Str := if p.isPrefixOf s then s.drop p.length else s

/-- Model of `strings.Contains(hay, needle)`. -/
def strContains (hay needle : Str) : Bool :=
  match hay with
  | [] => needle.isEmpty
  | _ :: t => needle.isPrefixOf hay || strContains t needle

/-- Character whitelist delimiting the sub-domain on which the `net/url`
model is exact: URL characters that `url.Parse` accepts verbatim and
`URL.String` reproduces verbatim (unreserved and sub-delimiter characters,
plus the colon, at-sign and slash).  Percent signs, white space, control
characters, brackets and non-ASCII characters are outside the model. -/
def allowedChar (c : Char) : Bool :=
  c.isAlpha || c.isDigit ||
    c ∈ ['-', '.', '_', '~', '!', '$', '&', '*', '+', ',', ';', '=', ':', '@', '/']

/-- Canonical relay URL produced by `internal/relayurl.New`: a scheme
(`ws` or `wss`), the authority part (userinfo, host and optional port)
and the path. -/
structure RelayURL where
  scheme : Str
  authority : Str
  path : Str
deriving DecidableEq, Repr

/-- Model of `URL.String` on the accepted sub-domain: scheme, `://`,
authority and path reassembled verbatim. -/
def RelayURL.toStr (u : RelayURL) : Str :=
  u.scheme ++ (':' :: '/' :: '/' :: []) ++ u.authority ++ u.path

/-- Model of `URL.Hostname()` (used by `relayUrl.Host`): strip the
userinfo (text up to the last at-sign) and the port (text from the first
colon on).  Bracketed IPv6 hosts are outside the model. -/
def RelayURL.host (u : RelayURL) : Str :=
  ((u.authority.reverse.takeWhile (· ≠ '@')).reverse).takeWhile (· ≠ ':')

/-- Authority/path split and host check shared by the `ws` and `wss`
branches of the parser: reject a query or fragment, split the remainder
at the first slash, reject an empty host. -/
def mkRelayURL (scheme rest : Str) : Option RelayURL :=
  if rest.any (fun c => c = '?' || c = '#') then none
  else
    let auth := rest.takeWhile (· ≠ '/')
    let path := rest.dropWhile (· ≠ '/')
    let hostport := (auth.reverse.takeWhile (· ≠ '@')).reverse
    if hostport = [] then none else some ⟨scheme, auth, path⟩

/-- Parsing stage of `internal/relayurl.New`, applied to the normalized
string: reject the empty string, require a `ws` or `wss` scheme, then
split authority and path.  Strings containing characters outside
`allowedChar` are rejected (they are outside the exact sub-domain of the
`net/url` model). -/
def relayurlParse (raw : Str) : Option RelayURL :=
  if raw = [] then none
  else if ¬ raw.all allowedChar then none
  else if ("wss://".toList).isPrefixOf raw then
    mkRelayURL "wss".toList (raw.drop 6)
  else if ("ws://".toList).isPrefixOf raw then
    mkRelayURL "ws".toList (raw.drop 5)
  else none

/-- Model of `internal/relayurl.New`: trim white space, lowercase, strip
one trailing slash, then parse, requiring a `ws` or `wss` scheme, no
query or fragment, and a non-empty host. -/
def relayurlNew (raw0 : Str) : Option RelayURL :=
  relayurlParse (trimSlash (lowerStr (trimS raw0)))

/-- Model of `urlToHost` (analyze.go): lowercase and trim, strip a
`wss://` or `ws://` prefix, strip one trailing slash, and cut at the
first slash, question mark or hash. -/
def urlToHost (u0 : Str) : Str :=
  let u1 := lowerStr (trimS u0)
  let u2 := trimPre "wss://".toList u1
  let u3 := trimPre "ws://".toList u2
  let u4 := trimSlash u3
  u4.takeWhile (fun c => ¬ (c = '/' || c = '?' || c = '#'))

/-- Parsed nostr event, the shape consumed by analyze.go after JSON
decoding (fields not read by the embedded code are omitted). -/
structure Event where
  kind : Int
  pubkey : Str
  createdAt : Int
  tags : List (List Str)
deriving DecidableEq, Repr

/-- Set-semantics insertion into the relay-to-pubkeys write map
(`writeMap[url].add(pk)` on the Go map of sets). -/
def wmAdd (m : List (Str × List Str)) (url pk : Str) : List (Str × List Str) :=
  match m with
  | [] => [(url, [pk])]
  | (u, s) :: rest =>
    if u = url then (u, if pk ∈ s then s else s ++ [pk]) :: rest
    else (u, s) :: wmAdd rest url pk

/-- Membership of an (endpoint, key) pair in a write map. -/
def memPair (m : List (Str × List Str)) (url pk : Str) : Prop :=
  ∃ p ∈ m, p.1 = url ∧ pk ∈ p.2

/-- Role string of an `r` tag: the lowercased third element when the tag
has one, otherwise the empty string (analyze.go lines 159-162). -/
def tagMode (tag : List Str) : Str := lowerStr (tag[2]?.getD [])

/-- Processing of one tag of a kind-10002 event (analyze.go lines
145-174): require an `r` tag with a URL, canonicalize, drop excluded
hosts, drop inbox paths, keep write or unspecified roles. -/
def tagStep (ex : List Str) (pk : Str) (m : List (Str × List Str)) (tag : List Str) :
    List (Str × List Str) :=
  match tag with
  | t0 :: t1 :: _ =>
    if t0 = "r".toList then
      match relayurlNew t1 with
      | none => m
      | some u =>
        let url := u.toStr
        if u.host ∈ ex then m
        else if strContains url ("/inbox".toList) then m
        else if tagMode tag = "write".toList ∨ tagMode tag = [] then wmAdd m url pk
        else m
    else m
  | _ => m

/-- Processing of one parsed event: only kind-10002 events contribute;
the pubkey is lowercased before insertion. -/
def eventStep (ex : List Str) (m : List (Str × List Str)) (ev : Event) :
    List (Str × List Str) :=
  if ev.kind = 10002 then ev.tags.foldl (tagStep ex (lowerStr ev.pubkey)) m else m

/-- Model of the write-index construction loop of `analyzeCmd`
(analyze.go lines 129-175), over already-parsed events. -/
def buildWriteMap (evs : List Event) (ex : List Str) : List (Str × List Str) :=
  evs.foldl (eventStep ex) []

/-- Conditions under which one tag of a record contributes the pair
(`url`, `k`) to the write index: an `r` tag whose URL canonicalizes to
`url`, host not excluded, no inbox path, role write or unspecified, and
`k` the (already lowercased) record key. -/
def tagHit (ex : List Str) (pk : Str) (tag : List Str) (url k : Str) : Prop :=
  ∃ t1 u, tag[0]? = some ("r".toList) ∧ tag[1]? = some t1 ∧ relayurlNew t1 = some u ∧
    url = u.toStr ∧ u.host ∉ ex ∧ strContains url ("/inbox".toList) = false ∧
    (tagMode tag = "write".toList ∨ tagMode tag = []) ∧ k = pk

/-- Conditions under which a record contributes the pair (`url`, `k`):
it is a kind-10002 record and one of its tags hits, with `k` its
lowercased key. -/
def evHit (ex : List Str) (ev : Event) (url k : Str) : Prop :=
  ev.kind = 10002 ∧ ∃ tag ∈ ev.tags, tagHit ex (lowerStr ev.pubkey) tag url k

/-- Fold of `uniqueByHost` (analyze.go lines 670-681): walk the sorted
URLs, skip empty hosts and hosts already seen, append first
representatives. -/
def uniqueByHostFold : List Str → List Str → List Str → List Str
  | [], _, out => out
  | r :: rest, seen, out =>
    if urlToHost r = [] then uniqueByHostFold rest seen out
    else if urlToHost r ∈ seen then uniqueByHostFold rest seen out
    else uniqueByHostFold rest (urlToHost r :: seen) (out ++ [r])

/-- Model of `uniqueByHost` (analyze.go lines 662-682): sort the write
map keys, then keep the first URL of each distinct non-empty host. -/
def uniqueByHost (m : List (Str × List Str)) : List Str :=
  uniqueByHostFold (sortStrs (m.map Prod.fst)) [] []

/-- Model of `chunk` (STRFRY_QUICKSTART.md embedded source, lines
446-459): split a list into consecutive slices of size `n`; a size of
zero (the Go code also guards negative sizes) yields no chunks. -/
def chunk (l : List Str) (n : Nat) : List (List Str) :=
  if h : n = 0 ∨ l = [] then []
  else l.take n :: chunk (l.drop n) n
termination_by l.length
decreasing_by
  · have hn : n ≠ 0 := fun hh => h (Or.inl hh)
    have hl : l ≠ [] := fun hh => h (Or.inr hh)
    have : 0 < l.length := List.length_pos.mpr hl
    have : 0 < n := Nat.pos_of_ne_zero hn
    simp [List.length_drop]
    omega

/-- All authors appearing in a relay-to-authors map, in enumeration
order (the flattening the Go code walks when initialising `need`). -/
def authorsOf (m : List (Str × List Str)) : List Str := (m.map Prod.snd).flatten

/-- Keys of a relay-to-authors map in enumeration order. -/
def keysOf (m : List (Str × List Str)) : List Str := m.map Prod.fst

/-- Map lookup `relayAuthors[relay]`, with the empty list as the Go zero
value for a missing key. -/
def lookupAL : List (Str × List Str) → Str → List Str
  | [], _ => []
  | p :: rest, r => if p.1 = r then p.2 else lookupAL rest r

/-- Number of map entries whose author list contains `a`: the write-index
degree of author `a` when the keys are distinct. -/
def degreeOf (m : List (Str × List Str)) (a : Str) : Nat :=
  m.countP (fun p => decide (a ∈ p.2))

/-- State of the greedy selection loop of `greedySelectAndAssignN`:
remaining need per author, per-relay assignment lists, the
relay-to-author assigned-set, and the selection order. -/
structure GState where
  need : Str → Nat
  assigned : Str → List Str
  aset : Str → Str → Bool
  selected : List Str

/-- Initialisation of the need map (STRFRY_QUICKSTART.md source, lines
116-124): every author found in the map gets `replicas` need. -/
def initNeed (m : List (Str × List Str)) (replicas : Nat) : Str → Nat :=
  (authorsOf m).foldl
    (fun need a => if need a = 0 then (fun x => if x = a then replicas else need x) else need)
    (fun _ => 0)

/-- Marginal gain `gainOf` of a relay: authors in its list that still
need a replica and are not already assigned to this relay. -/
def gainOf (m : List (Str × List Str)) (st : GState) (r : Str) : Nat :=
  (lookupAL m r).countP (fun a => decide (0 < st.need a) && ! st.aset r a)

/-- Selection scan (lines 161-169 of the embedded source): walk the
candidate relays in enumeration order keeping the first one whose gain
strictly exceeds the best so far. -/
def pickBest (order : List Str) (g : Str → Nat) : Str × Nat :=
  order.foldl (fun b r => if b.2 < g r then (r, g r) else b) ([], 0)

/-- Largest gain over a candidate list. -/
def maxGain (order : List Str) (g : Str → Nat) : Nat :=
  (order.map g).foldr max 0

/-- Assignment of one author to the chosen relay (lines 175-188): skip
authors without need or already assigned here, otherwise record the
assignment and decrement the need. -/
def assignOne (r : Str) (st : GState) (a : Str) : GState :=
  if st.need a = 0 then st
  else if st.aset r a then st
  else
    { need := fun x => if x = a then st.need x - 1 else st.need x
      assigned := fun x => if x = r then st.assigned x ++ [a] else st.assigned x
      aset := fun x y => if x = r ∧ y = a then true else st.aset x y
      selected := st.selected }

/-- Assign every needing author of the chosen relay, then append the
relay to the selection order. -/
def assignRelay (m : List (Str × List Str)) (st : GState) (r : Str) : GState :=
  let st1 := (lookupAL m r).foldl (assignOne r) st
  { st1 with selected := st1.selected ++ [r] }

/-- Completion test of the loop (lines 150-159): every author need is
zero. -/
def needsDone (m : List (Str × List Str)) (st : GState) : Bool :=
  (authorsOf m).all (fun a => decide (st.need a = 0))

/-- Fuelled model of the unbounded `for` loop of
`greedySelectAndAssignN`: stop when done, when the best gain is zero or
when the best relay is the empty string, otherwise assign and recurse. -/
def greedyLoop (m : List (Str × List Str)) : Nat → GState → GState
  | 0, st => st
  | Nat.succ fuel, st =>
    if needsDone m st then st
    else
      let b := pickBest (keysOf m) (gainOf m st)
      if b.2 = 0 ∨ b.1 = [] then st
      else greedyLoop m fuel (assignRelay m st b.1)

/-- Initial greedy state. -/
def greedyInit (m : List (Str × List Str)) (replicas : Nat) : GState :=
  ⟨initNeed m replicas, fun _ => [], fun _ _ => false, []⟩

/-- Total remaining need, the termination measure of the loop. -/
def needSum (m : List (Str × List Str)) (st : GState) : Nat :=
  ((authorsOf m).dedup.map st.need).sum

/-- Fuel sufficient for the loop to reach its exit condition. -/
def greedyFuel (m : List (Str × List Str)) (replicas : Nat) : Nat :=
  replicas * (authorsOf m).dedup.length + 1

/-- State in which the greedy loop exits. -/
def greedyFinalState (m : List (Str × List Str)) (replicas : Nat) : GState :=
  greedyLoop m (greedyFuel m replicas) (greedyInit m replicas)

/-- Exit condition of the loop: all needs met, or no relay has positive
gain, or the scan returned the empty sentinel relay. -/
def isStuck (m : List (Str × List Str)) (st : GState) : Prop :=
  needsDone m st = true
    ∨ (pickBest (keysOf m) (gainOf m st)).2 = 0
    ∨ (pickBest (keysOf m) (gainOf m st)).1 = []

/-- Re-canonicalization applied to each selected relay before returning
(lines 196-200): parse and reprint, keeping the raw string on error. -/
def canonRelay (r : Str) : Str :=
  match relayurlNew r with
  | some u => u.toStr
  | none => r

/-- Model of `greedySelectAndAssignN`: run the loop, re-canonicalize the
selection order, and deduplicate-and-sort each per-relay author list. -/
def greedySelectAndAssignN (m : List (Str × List Str)) (replicas : Nat) :
    List Str × (Str → List Str) :=
  let st := greedyFinalState m replicas
  (st.selected.map canonRelay, fun r => uniqueSorted (st.assigned r))

/-- NIP-66 per-relay monitoring record (`RelayMonitorInfo`,
analyze.go lines 281-289). -/
structure RelayMonitorInfo where
  url : Str
  status : Str
  rttOpen : Int
  rttRead : Int
  rttWrite : Int
  lastChecked : Int
  monitorCount : Int
deriving DecidableEq, Repr

/-- Leading decimal digits of a string, if any. -/
def digitsVal (s : Str) : Option Int :=
  let ds := s.takeWhile Char.isDigit
  if ds = [] then none
  else some (ds.foldl (fun n c => n * 10 + ((c.toNat : Int) - 48)) 0)

/-- Model of `parseInt` (analyze.go lines 597-601), i.e. of
`fmt.Sscanf(s, "%d", &val)`: skip leading white space, read an optional
sign and leading digits; on a scan failure the value stays zero. -/
def parseIntGo (s : Str) : Int :=
  let t := s.dropWhile Char.isWhitespace
  match t with
  | '-' :: rest => -((digitsVal rest).getD 0)
  | '+' :: rest => (digitsVal rest).getD 0
  | _ => (digitsVal t).getD 0

/-- Frequency extracted from a monitor announcement (analyze.go lines
354-363): the first `frequency` tag decides; a non-positive or
unparseable value leaves the one-hour default. -/
def monFrequency : List (List Str) → Int
  | [] => 3600
  | tag :: rest =>
    match tag with
    | t0 :: t1 :: _ =>
      if t0 = "frequency".toList then
        if 0 < parseIntGo t1 then parseIntGo t1 else 3600
      else monFrequency rest
    | _ => monFrequency rest

/-- Store into an association list with map overwrite semantics. -/
def monStore (mons : List (Str × Int)) (pk : Str) (freq : Int) : List (Str × Int) :=
  match mons with
  | [] => [(pk, freq)]
  | (k, v) :: rest => if k = pk then (k, freq) :: rest else (k, v) :: monStore rest pk freq

/-- Model of `fetchMonitorInfo` over an already-acquired announcement
stream: record each announcing monitor and its checking frequency. -/
def fetchMonitorInfo (anns : List Event) : List (Str × Int) :=
  anns.foldl (fun mons ev => monStore mons ev.pubkey (monFrequency ev.tags)) []

/-- Lookup of a monitoring record. -/
def rmLookup : List (Str × RelayMonitorInfo) → Str → Option RelayMonitorInfo
  | [], _ => none
  | (k, v) :: rest, u => if k = u then some v else rmLookup rest u

/-- Store of a monitoring record (map overwrite semantics). -/
def rmStore (res : List (Str × RelayMonitorInfo)) (u : Str) (i : RelayMonitorInfo) :
    List (Str × RelayMonitorInfo) :=
  match res with
  | [] => [(u, i)]
  | (k, v) :: rest => if k = u then (k, i) :: rest else (k, v) :: rmStore rest u i

/-- Status of a relay in the fused result, when present. -/
def rmStatus (res : List (Str × RelayMonitorInfo)) (u : Str) : Option Str :=
  (rmLookup res u).map RelayMonitorInfo.status

/-- Relay URL named by the first `d` tag that canonicalizes
(analyze.go lines 493-507); later `d` tags are tried when an earlier one
fails to parse. -/
def findDTagURL : List (List Str) → Option Str
  | [] => none
  | tag :: rest =>
    match tag with
    | t0 :: t1 :: _ =>
      if t0 = "d".toList then
        match relayurlNew t1 with
        | some u => some u.toStr
        | none => findDTagURL rest
      else findDTagURL rest
    | _ => findDTagURL rest

/-- RTT accumulation over the tags of one report (analyze.go lines
558-587): keep the minimum positive value per phase, and remember
whether any positive RTT was seen. -/
def rttStep (acc : RelayMonitorInfo × Bool) (tag : List Str) : RelayMonitorInfo × Bool :=
  match tag with
  | t0 :: t1 :: _ =>
    let info := acc.1
    if t0 = "rtt-open".toList then
      let v := parseIntGo t1
      if 0 < v then
        ({ info with rttOpen := if info.rttOpen = 0 ∨ v < info.rttOpen then v else info.rttOpen },
          true)
      else acc
    else if t0 = "rtt-read".toList then
      let v := parseIntGo t1
      if 0 < v then
        ({ info with rttRead := if info.rttRead = 0 ∨ v < info.rttRead then v else info.rttRead },
          true)
      else acc
    else if t0 = "rtt-write".toList then
      let v := parseIntGo t1
      if 0 < v then
        ({ info with rttWrite := if info.rttWrite = 0 ∨ v < info.rttWrite then v else info.rttWrite },
          true)
      else acc
    else acc
  | _ => acc

/-- Last-checked refresh of one report (analyze.go lines 523-526). -/
def updateLastChecked (i : RelayMonitorInfo) (t : Int) : RelayMonitorInfo :=
  if i.lastChecked < t then { i with lastChecked := t } else i

/-- Monitor-count increment of one report (analyze.go line 529). -/
def bumpMonitorCount (i : RelayMonitorInfo) : RelayMonitorInfo :=
  { i with monitorCount := i.monitorCount + 1 }

/-- Frequency of the reporting monitor, defaulting to one hour
(analyze.go lines 531-537). -/
def monFreqLookup (monitors : List (Str × Int)) (pk : Str) : Int :=
  match monitors.find? (fun p => decide (p.1 = pk)) with
  | some p => p.2
  | none => 3600

/-- Status upgrade of one report (analyze.go lines 589-594): mark online
exactly when the report is recent and carried a positive RTT. -/
def finishInfo (isRecent : Prop) [Decidable isRecent] (acc : RelayMonitorInfo × Bool) :
    RelayMonitorInfo :=
  if isRecent ∧ acc.2 = true then { acc.1 with status := "online".toList } else acc.1

/-- Model of `parseNIP66Event` (analyze.go lines 490-595): resolve the
target relay from the `d` tag, refresh the last-checked time, count the
monitor, fold the RTT tags, and mark the relay online when the report is
recent for its monitor and carries a positive RTT. -/
def parseNIP66Event (now : Int) (ev : Event) (monitors : List (Str × Int))
    (result : List (Str × RelayMonitorInfo)) : List (Str × RelayMonitorInfo) :=
  match findDTagURL ev.tags with
  | none => result
  | some relayURL =>
    let info0 := (rmLookup result relayURL).getD ⟨relayURL, "unknown".toList, 0, 0, 0, 0, 0⟩
    let info2 := bumpMonitorCount (updateLastChecked info0 ev.createdAt)
    let freq := monFreqLookup monitors ev.pubkey
    rmStore result relayURL
      (finishInfo (now - freq * 2 ≤ ev.createdAt) (ev.tags.foldl rttStep (info2, false)))

/-- Fold of a report stream into the per-relay records. -/
def fuseReports (now : Int) (monitors : List (Str × Int)) (reports : List Event)
    (result : List (Str × RelayMonitorInfo)) : List (Str × RelayMonitorInfo) :=
  reports.foldl (fun res ev => parseNIP66Event now ev monitors res) result

/-- Model of `fetchNIP66MonitorData` (analyze.go lines 380-487) over
already-acquired announcement and report streams: initialise every
target to `unknown`, learn the monitor frequencies, fold the reports. -/
def fetchNIP66MonitorData (now : Int) (targets : List Str) (anns reports : List Event) :
    List (Str × RelayMonitorInfo) :=
  let result := targets.map (fun r => (r, (⟨r, "unknown".toList, 0, 0, 0, 0, 0⟩ : RelayMonitorInfo)))
  fuseReports now (fetchMonitorInfo anns) reports result

/-- The two statuses the fusion procedure can actually produce. -/
def statusOK (i : RelayMonitorInfo) : Prop :=
  i.status = "unknown".toList ∨ i.status = "online".toList

/-- Concrete three-relay, three-author map used to exercise the greedy
assigner at replication factor two: each author is covered by exactly
two relays. -/
def scenarioMap : List (Str × List Str) :=
  [("e1".toList, ["k1".toList, "k2".toList]),
   ("e2".toList, ["k2".toList, "k3".toList]),
   ("e3".toList, ["k1".toList, "k3".toList])]


/-! ### Helper lemmas -/

theorem chunk_flatten_bounded (C : Nat) (hC : 1 ≤ C) :
    ∀ (n : Nat) (l : List Str), l.length ≤ n → (chunk l C).flatten = l := by
  intro n
  induction n with
  | zero =>
    intro l hl
    have hnil : l = [] := List.eq_nil_of_length_eq_zero (Nat.le_zero.mp hl)
    subst hnil
    rw [chunk]
    simp
  | succ n ih =>
    intro l hl
    by_cases hnil : l = []
    · subst hnil
      rw [chunk]
      simp
    · rw [chunk]
      have hcond : ¬ (C = 0 ∨ l = []) := by
        rintro (h | h)
        · omega
        · exact hnil h
      rw [dif_neg hcond]
      have hlen : (l.drop C).length ≤ n := by
        have h1 : 0 < l.length := List.length_pos.mpr hnil
        simp only [List.length_drop]
        omega
      rw [List.flatten_cons, ih (l.drop C) hlen, List.take_append_drop]

theorem chunk_length_bounded (C : Nat) (hC : 1 ≤ C) :
    ∀ (n : Nat) (l : List Str), l.length ≤ n → (chunk l C).length = (l.length + C - 1) / C := by
  intro n
  induction n with
  | zero =>
    intro l hl
    have hnil : l = [] := List.eq_nil_of_length_eq_zero (Nat.le_zero.mp hl)
    subst hnil
    rw [chunk, dif_pos (Or.inr rfl)]
    simp only [List.length_nil]
    exact (Nat.div_eq_of_lt (by omega)).symm
  | succ n ih =>
    intro l hl
    by_cases hnil : l = []
    · subst hnil
      rw [chunk, dif_pos (Or.inr rfl)]
      simp only [List.length_nil]
      exact (Nat.div_eq_of_lt (by omega)).symm
    · rw [chunk]
      have hcond : ¬ (C = 0 ∨ l = []) := by
        rintro (h | h)
        · omega
        · exact hnil h
      rw [dif_neg hcond]
      have h1 : 0 < l.length := List.length_pos.mpr hnil
      have hlen : (l.drop C).length ≤ n := by
        simp only [List.length_drop]
        omega
      rw [List.length_cons, ih (l.drop C) hlen]
      simp only [List.length_drop]
      rcases le_or_lt l.length C with hle | hlt
      · have hz : l.length - C = 0 := by omega
        rw [hz]
        have hr1 : (0 + C - 1) / C = 0 := Nat.div_eq_of_lt (by omega)
        have hr2 : (l.length + C - 1) / C = 1 := by
          apply Nat.div_eq_of_lt_le
          · omega
          · omega
        omega
      · have he1 : l.length - C + C - 1 = l.length - C - 1 + C := by omega
        have he2 : l.length + C - 1 = l.length - 1 + C := by omega
        have he4 : l.length - 1 = l.length - C - 1 + C := by omega
        rw [he1, he2, Nat.add_div_right _ (by omega), Nat.add_div_right _ (by omega), he4,
          Nat.add_div_right _ (by omega)]

theorem mem_takeWhile_no_colon (l : Str) : ':' ∉ l.takeWhile (· ≠ ':') := by
  intro hmem
  have := List.mem_takeWhile_imp hmem
  simp at this

/-! ### C8: the stream partitioner splits each assigned-key list into
ceil-many chunks whose concatenation reproduces the list exactly -/

/-- C8: for every key list `l` and chunk size `C ≥ 1`, `chunk` produces
exactly `⌈|l| / C⌉` chunks, and their in-order concatenation reproduces
`l` with no duplicates and no omissions. -/
theorem chunk_partitions (l : List Str) (C : Nat) (hC : 1 ≤ C) :
    (chunk l C).length = (l.length + C - 1) / C ∧ (chunk l C).flatten = l := by
  exact ⟨chunk_length_bounded C hC l.length l le_rfl,
    chunk_flatten_bounded C hC l.length l le_rfl⟩

/-- Witness for C8 at a concrete five-element list and chunk size two. -/
theorem chunk_partitions_witness :
    1 ≤ 2 ∧
      ((chunk ["k1".toList, "k2".toList, "k3".toList, "k4".toList, "k5".toList] 2).length
          = (5 + 2 - 1) / 2 ∧
        (chunk ["k1".toList, "k2".toList, "k3".toList, "k4".toList, "k5".toList] 2).flatten
          = ["k1".toList, "k2".toList, "k3".toList, "k4".toList, "k5".toList]) :=
  ⟨by decide, chunk_partitions ["k1".toList, "k2".toList, "k3".toList, "k4".toList, "k5".toList]
    2 (by decide)⟩

/-! ### C9: an exclusion entry with an explicit port never matches -/

/-- C9: an exclusion entry `e` whose computed host key keeps a colon
(an explicit `:port` suffix) excludes no endpoint: every candidate
endpoint that canonicalizes is compared through its port-stripped
hostname, which contains no colon, so the membership test is false. -/
theorem excluded_port_entry_never_matches (e s : Str) (u : RelayURL)
    (hcolon : ':' ∈ urlToHost e) (hparse : relayurlNew s = some u) :
    urlToHost e ≠ u.host := by
  intro heq
  have : ':' ∈ u.host := heq ▸ hcolon
  exact mem_takeWhile_no_colon _ this

/-- Witness for C9: the entry `wss://bad.example:8080` keeps its port in
the host key, while the endpoint `wss://bad.example:8080` itself
canonicalizes to a URL whose hostname is `bad.example`; the exclusion
test is false. -/
theorem excluded_port_entry_never_matches_witness :
    ':' ∈ urlToHost ("wss://bad.example:8080".toList)
      ∧ relayurlNew ("wss://bad.example:8080".toList)
          = some ⟨"wss".toList, "bad.example:8080".toList, []⟩
      ∧ urlToHost ("wss://bad.example:8080".toList)
          ≠ RelayURL.host ⟨"wss".toList, "bad.example:8080".toList, []⟩ :=
  ⟨by decide, by decide,
    excluded_port_entry_never_matches ("wss://bad.example:8080".toList)
      ("wss://bad.example:8080".toList)
      ⟨"wss".toList, "bad.example:8080".toList, []⟩ (by decide) (by decide)⟩

theorem rttStep_status (acc : RelayMonitorInfo × Bool) (tag : List Str) :
    (rttStep acc tag).1.status = acc.1.status := by
  rcases tag with _ | ⟨t0, tag⟩
  · rfl
  rcases tag with _ | ⟨t1, rest⟩
  · rfl
  unfold rttStep
  dsimp only
  split_ifs <;> rfl

theorem rttFold_status (tags : List (List Str)) :
    ∀ acc : RelayMonitorInfo × Bool, (tags.foldl rttStep acc).1.status = acc.1.status := by
  induction tags with
  | nil => intro acc; rfl
  | cons tag rest ih =>
    intro acc
    rw [List.foldl_cons, ih, rttStep_status]

theorem rmLookup_rmStore (res : List (Str × RelayMonitorInfo)) (k u : Str)
    (i : RelayMonitorInfo) :
    rmLookup (rmStore res k i) u = if k = u then some i else rmLookup res u := by
  induction res with
  | nil =>
    by_cases h : k = u <;> simp [rmStore, rmLookup, h]
  | cons p rest ih =>
    rcases p with ⟨k0, v0⟩
    by_cases h0 : k0 = k
    · subst h0
      by_cases h : k0 = u <;> simp [rmStore, rmLookup, h]
    · by_cases h : k0 = u
      · subst h
        have hk : ¬ k = k0 := fun hh => h0 hh.symm
        simp [rmStore, rmLookup, h0, hk]
      · simp [rmStore, rmLookup, h0, h, ih]

theorem finishInfo_status (b : Prop) [Decidable b] (acc : RelayMonitorInfo × Bool) :
    (finishInfo b acc).status = acc.1.status ∨ (finishInfo b acc).status = "online".toList := by
  unfold finishInfo
  split_ifs
  · right; rfl
  · left; rfl

theorem updateLastChecked_status (i : RelayMonitorInfo) (t : Int) :
    (updateLastChecked i t).status = i.status := by
  unfold updateLastChecked
  split_ifs <;> rfl

theorem parse_status_shape (now : Int) (ev : Event) (monitors : List (Str × Int))
    (res : List (Str × RelayMonitorInfo)) (rel : Str)
    (hd : findDTagURL ev.tags = some rel) :
    rmStatus (parseNIP66Event now ev monitors res) rel
        = some ((rmLookup res rel).getD
            ⟨rel, "unknown".toList, 0, 0, 0, 0, 0⟩).status
      ∨ rmStatus (parseNIP66Event now ev monitors res) rel = some ("online".toList) := by
  unfold parseNIP66Event
  rw [hd]
  dsimp only
  unfold rmStatus
  rw [rmLookup_rmStore, if_pos rfl]
  simp only [Option.map_some']
  refine (finishInfo_status (now - monFreqLookup monitors ev.pubkey * 2 ≤ ev.createdAt)
      (ev.tags.foldl rttStep
        (bumpMonitorCount (updateLastChecked
          ((rmLookup res rel).getD ⟨rel, "unknown".toList, 0, 0, 0, 0, 0⟩) ev.createdAt),
          false))).imp (fun h => ?_) (fun h => ?_)
  · rw [h, rttFold_status]
    rw [show ∀ j : RelayMonitorInfo, (bumpMonitorCount j).status = j.status from fun _ => rfl,
      updateLastChecked_status]
  · rw [h]

theorem parse_keeps_other (now : Int) (ev : Event) (monitors : List (Str × Int))
    (res : List (Str × RelayMonitorInfo)) (url : Str)
    (hd : ∀ rel, findDTagURL ev.tags = some rel → rel ≠ url) :
    rmLookup (parseNIP66Event now ev monitors res) url = rmLookup res url := by
  unfold parseNIP66Event
  cases hdt : findDTagURL ev.tags with
  | none => rfl
  | some rel =>
    dsimp only
    rw [rmLookup_rmStore, if_neg (hd rel hdt)]

theorem parse_keeps_online (now : Int) (ev : Event) (monitors : List (Str × Int))
    (res : List (Str × RelayMonitorInfo)) (url : Str)
    (h : rmStatus res url = some ("online".toList)) :
    rmStatus (parseNIP66Event now ev monitors res) url = some ("online".toList) := by
  cases hdt : findDTagURL ev.tags with
  | none =>
    unfold parseNIP66Event
    rw [hdt]
    exact h
  | some rel =>
    by_cases hrel : rel = url
    · subst hrel
      rcases parse_status_shape now ev monitors res rel hdt with hs | hs
      · rw [hs]
        unfold rmStatus at h
        cases hl : rmLookup res rel with
        | none => rw [hl] at h; simp at h
        | some info =>
          rw [hl] at h
          simp only [Option.map_some'] at h
          simpa using h
      · exact hs
    · unfold rmStatus at h ⊢
      rw [parse_keeps_other now ev monitors res url (fun r hr => by
        rw [hdt] at hr
        injection hr with hr
        exact hr ▸ hrel)]
      exact h

/-! ### C4: liveness fusion never demotes an online record -/

/-- C4: within one fusion pass, once some report has set the status of
an endpoint record to online, folding any further sequence of monitor
reports leaves that record online; no report demotes it to unknown or
any other value. -/
theorem liveness_monotone (now : Int) (monitors : List (Str × Int)) (reports : List Event)
    (res : List (Str × RelayMonitorInfo)) (url : Str)
    (h : rmStatus res url = some ("online".toList)) :
    rmStatus (fuseReports now monitors reports res) url = some ("online".toList) := by
  unfold fuseReports
  induction reports generalizing res with
  | nil => exact h
  | cons ev rest ih =>
    rw [List.foldl_cons]
    exact ih (parseNIP66Event now ev monitors res) (parse_keeps_online now ev monitors res url h)

/-- Witness for C4: a record already online stays online after folding a
further report (one that matches the endpoint but carries no RTT). -/
theorem liveness_monotone_witness :
    rmStatus [(("wss://a.example".toList : Str),
        (⟨"wss://a.example".toList, "online".toList, 50, 0, 0, 1000, 1⟩ : RelayMonitorInfo))]
        ("wss://a.example".toList) = some ("online".toList)
      ∧ rmStatus (fuseReports 10000 []
          [⟨30166, "monitorpk".toList, 500, [["d".toList, "wss://a.example/".toList]]⟩]
          [(("wss://a.example".toList : Str),
            (⟨"wss://a.example".toList, "online".toList, 50, 0, 0, 1000, 1⟩ : RelayMonitorInfo))])
          ("wss://a.example".toList) = some ("online".toList) :=
  ⟨by decide,
    liveness_monotone 10000 []
      [⟨30166, "monitorpk".toList, 500, [["d".toList, "wss://a.example/".toList]]⟩]
      [(("wss://a.example".toList : Str),
        (⟨"wss://a.example".toList, "online".toList, 50, 0, 0, 1000, 1⟩ : RelayMonitorInfo))]
      ("wss://a.example".toList) (by decide)⟩

/-! ### C6: fused statuses are always unknown or online -/

theorem statusOK_final (b : Prop) [Decidable b] (tags : List (List Str)) (t : Int)
    (i0 : RelayMonitorInfo) (h : statusOK i0) :
    statusOK (finishInfo b (tags.foldl rttStep (bumpMonitorCount (updateLastChecked i0 t), false))) := by
  rcases finishInfo_status b (tags.foldl rttStep (bumpMonitorCount (updateLastChecked i0 t), false))
    with hs | hs
  · unfold statusOK
    rw [hs, rttFold_status,
      show ∀ j : RelayMonitorInfo, (bumpMonitorCount j).status = j.status from fun _ => rfl,
      updateLastChecked_status]
    exact h
  · right
    exact hs

theorem parse_statusOK (now : Int) (ev : Event) (monitors : List (Str × Int))
    (res : List (Str × RelayMonitorInfo))
    (h : ∀ u i, rmLookup res u = some i → statusOK i) :
    ∀ u i, rmLookup (parseNIP66Event now ev monitors res) u = some i → statusOK i := by
  intro u i hi
  cases hdt : findDTagURL ev.tags with
  | none =>
    unfold parseNIP66Event at hi
    rw [hdt] at hi
    exact h u i hi
  | some rel =>
    unfold parseNIP66Event at hi
    rw [hdt] at hi
    dsimp only at hi
    rw [rmLookup_rmStore] at hi
    by_cases hrel : rel = u
    · rw [if_pos hrel] at hi
      injection hi with hi
      rw [← hi]
      apply statusOK_final
      cases hl : rmLookup res rel with
      | none => left; rfl
      | some info => exact h rel info hl
    · rw [if_neg hrel] at hi
      exact h u i hi

theorem fuse_statusOK (now : Int) (monitors : List (Str × Int)) (reports : List Event) :
    ∀ res, (∀ u i, rmLookup res u = some i → statusOK i) →
      ∀ u i, rmLookup (fuseReports now monitors reports res) u = some i → statusOK i := by
  induction reports with
  | nil => intro res h; exact h
  | cons ev rest ih =>
    intro res h
    unfold fuseReports at ih ⊢
    rw [List.foldl_cons]
    exact ih (parseNIP66Event now ev monitors res) (parse_statusOK now ev monitors res h)

theorem init_status_unknown (targets : List Str) :
    ∀ u i, rmLookup (targets.map
        (fun r => (r, (⟨r, "unknown".toList, 0, 0, 0, 0, 0⟩ : RelayMonitorInfo)))) u = some i →
      i.status = "unknown".toList := by
  induction targets with
  | nil => intro u i hi; simp [rmLookup] at hi
  | cons r rest ih =>
    intro u i hi
    simp only [List.map_cons] at hi
    unfold rmLookup at hi
    by_cases hr : r = u
    · rw [if_pos hr] at hi
      injection hi with hi
      rw [← hi]
    · rw [if_neg hr] at hi
      exact ih u i hi

/-- C6: every record produced by the fusion procedure has status unknown
or online; targets are initialised to unknown, and no step of the
procedure ever produces the status offline. -/
theorem fusion_status_unknown_or_online (now : Int) (targets : List Str)
    (anns reports : List Event) (url : Str) (i : RelayMonitorInfo)
    (h : rmLookup (fetchNIP66MonitorData now targets anns reports) url = some i) :
    statusOK i := by
  unfold fetchNIP66MonitorData at h
  exact fuse_statusOK now (fetchMonitorInfo anns) reports _
    (fun u j hj => Or.inl (init_status_unknown targets u j hj)) url i h

/-- Witness for C6: one target, one announcement, one recent report with
a positive RTT; the fused record is online, hence in the allowed set. -/
theorem fusion_status_unknown_or_online_witness :
    rmLookup (fetchNIP66MonitorData 10000 ["wss://a.example".toList]
        [⟨10166, "monitorpk".toList, 9000, [["frequency".toList, "1800".toList]]⟩]
        [⟨30166, "monitorpk".toList, 9500,
          [["d".toList, "wss://a.example/".toList], ["rtt-open".toList, "50".toList]]⟩])
        ("wss://a.example".toList)
      = some ⟨"wss://a.example".toList, "online".toList, 50, 0, 0, 9500, 1⟩
    ∧ statusOK ⟨"wss://a.example".toList, "online".toList, 50, 0, 0, 9500, 1⟩ :=
  ⟨by decide,
    fusion_status_unknown_or_online 10000 ["wss://a.example".toList]
      [⟨10166, "monitorpk".toList, 9000, [["frequency".toList, "1800".toList]]⟩]
      [⟨30166, "monitorpk".toList, 9500,
        [["d".toList, "wss://a.example/".toList], ["rtt-open".toList, "50".toList]]⟩]
      ("wss://a.example".toList) ⟨"wss://a.example".toList, "online".toList, 50, 0, 0, 9500, 1⟩
      (by decide)⟩

/-! ### Order lemmas for strLe and the host-unique selector (C5) -/

theorem strLe_cons_iff (a b : Char) (as bs : Str) :
    strLe (a :: as) (b :: bs) = true ↔ a < b ∨ (a = b ∧ strLe as bs = true) := by
  rw [show strLe (a :: as) (b :: bs)
      = if a < b then true else if b < a then false else strLe as bs from rfl]
  split_ifs with h1 h2
  · simp [h1]
  · simp only [Bool.false_eq_true, false_iff]
    rintro (h | ⟨h, _⟩)
    · exact absurd h h1
    · subst h; exact absurd h2 (lt_irrefl a)
  · have heq : a = b := le_antisymm (not_lt.mp h2) (not_lt.mp h1)
    simp [heq, h1]

theorem strLe_refl (a : Str) : strLe a a = true := by
  induction a with
  | nil => rfl
  | cons c cs ih => rw [strLe_cons_iff]; exact Or.inr ⟨rfl, ih⟩

theorem strLe_total (a b : Str) : strLe a b = true ∨ strLe b a = true := by
  induction a generalizing b with
  | nil => left; rfl
  | cons c cs ih =>
    cases b with
    | nil => right; rfl
    | cons d ds =>
      rcases lt_trichotomy c d with h | h | h
      · left; rw [strLe_cons_iff]; exact Or.inl h
      · rcases ih ds with h2 | h2
        · left; rw [strLe_cons_iff]; exact Or.inr ⟨h, h2⟩
        · right; rw [strLe_cons_iff]; exact Or.inr ⟨h.symm, h2⟩
      · right; rw [strLe_cons_iff]; exact Or.inl h

theorem strLe_trans (a b c : Str) (hab : strLe a b = true) (hbc : strLe b c = true) :
    strLe a c = true := by
  induction a generalizing b c with
  | nil => rfl
  | cons x xs ih =>
    cases b with
    | nil => exact absurd hab (by simp [strLe])
    | cons y ys =>
      cases c with
      | nil => exact absurd hbc (by simp [strLe])
      | cons z zs =>
        rw [strLe_cons_iff] at hab hbc ⊢
        rcases hab with h1 | ⟨h1, h1'⟩ <;> rcases hbc with h2 | ⟨h2, h2'⟩
        · exact Or.inl (h1.trans h2)
        · exact Or.inl (h2 ▸ h1)
        · exact Or.inl (h1 ▸ h2)
        · exact Or.inr ⟨h1.trans h2, ih ys zs h1' h2'⟩

instance : IsTotal Str StrLe := ⟨strLe_total⟩

instance : IsTrans Str StrLe := ⟨strLe_trans⟩

theorem sortStrs_sorted (l : List Str) : List.Sorted StrLe (sortStrs l) :=
  List.sorted_insertionSort StrLe l

theorem sortStrs_perm (l : List Str) : (sortStrs l).Perm l :=
  List.perm_insertionSort StrLe l

theorem uniqueByHostFold_mem :
    ∀ (rem seen out : List Str), List.Sorted StrLe rem →
      ∀ r ∈ uniqueByHostFold rem seen out,
        r ∈ out ∨ (r ∈ rem ∧ urlToHost r ≠ [] ∧ urlToHost r ∉ seen ∧
          ∀ x ∈ rem, urlToHost x = urlToHost r → strLe r x = true) := by
  intro rem
  induction rem with
  | nil =>
    intro seen out _ r hr
    exact Or.inl hr
  | cons y rest ih =>
    intro seen out hsort r hr
    obtain ⟨hy, hrest⟩ := List.sorted_cons.mp hsort
    unfold uniqueByHostFold at hr
    by_cases h1 : urlToHost y = []
    · rw [if_pos h1] at hr
      rcases ih seen out hrest r hr with h | ⟨hmem, hne, hnseen, hmin⟩
      · exact Or.inl h
      · refine Or.inr ⟨List.mem_cons_of_mem y hmem, hne, hnseen, ?_⟩
        intro x hx heq
        rcases List.mem_cons.mp hx with hxy | hx'
        · subst hxy; exact absurd (heq.symm.trans h1) hne
        · exact hmin x hx' heq
    · rw [if_neg h1] at hr
      by_cases h2 : urlToHost y ∈ seen
      · rw [if_pos h2] at hr
        rcases ih seen out hrest r hr with h | ⟨hmem, hne, hnseen, hmin⟩
        · exact Or.inl h
        · refine Or.inr ⟨List.mem_cons_of_mem y hmem, hne, hnseen, ?_⟩
          intro x hx heq
          rcases List.mem_cons.mp hx with hxy | hx'
          · subst hxy; exact absurd (heq ▸ h2) hnseen
          · exact hmin x hx' heq
      · rw [if_neg h2] at hr
        rcases ih (urlToHost y :: seen) (out ++ [y]) hrest r hr with h | ⟨hmem, hne, hnseen, hmin⟩
        · rcases List.mem_append.mp h with h' | h'
          · exact Or.inl h'
          · have hry : r = y := List.mem_singleton.mp h'
            subst hry
            refine Or.inr ⟨List.mem_cons_self _ _, h1, h2, ?_⟩
            intro x hx _
            rcases List.mem_cons.mp hx with hxy | hx'
            · subst hxy; exact strLe_refl _
            · exact hy x hx'
        · have hney : urlToHost r ≠ urlToHost y := fun hh => hnseen (hh ▸ List.mem_cons_self _ _)
          refine Or.inr ⟨List.mem_cons_of_mem y hmem, hne,
            fun hh => hnseen (List.mem_cons_of_mem _ hh), ?_⟩
          intro x hx heq
          rcases List.mem_cons.mp hx with hxy | hx'
          · subst hxy; exact absurd heq (fun hh => hney hh.symm)
          · exact hmin x hx' heq

theorem uniqueByHostFold_pairwise :
    ∀ (rem seen out : List Str),
      out.Pairwise (fun a b => urlToHost a ≠ urlToHost b) →
      (∀ r ∈ out, urlToHost r ∈ seen) →
      (uniqueByHostFold rem seen out).Pairwise (fun a b => urlToHost a ≠ urlToHost b) := by
  intro rem
  induction rem with
  | nil => intro seen out hp _; exact hp
  | cons y rest ih =>
    intro seen out hp hseen
    unfold uniqueByHostFold
    by_cases h1 : urlToHost y = []
    · rw [if_pos h1]; exact ih seen out hp hseen
    · rw [if_neg h1]
      by_cases h2 : urlToHost y ∈ seen
      · rw [if_pos h2]; exact ih seen out hp hseen
      · rw [if_neg h2]
        apply ih (urlToHost y :: seen) (out ++ [y])
        · rw [List.pairwise_append]
          refine ⟨hp, List.pairwise_singleton _ _, ?_⟩
          intro a ha b hb
          have hb' : b = y := List.mem_singleton.mp hb
          subst hb'
          exact fun hh => h2 (hh ▸ hseen a ha)
        · intro r hrm
          rcases List.mem_append.mp hrm with h' | h'
          · exact List.mem_cons_of_mem _ (hseen r h')
          · have : r = y := List.mem_singleton.mp h'
            subst this
            exact List.mem_cons_self _ _

/-! ### C5: the host-unique selector -/

/-- C5: the output of the host-unique selector contains no two endpoints
sharing a host key, is a subset of the write-index endpoint set, and each
chosen endpoint is the lexicographically smallest write-index endpoint
with its host key. -/
theorem uniqueByHost_spec (m : List (Str × List Str)) :
    (uniqueByHost m).Pairwise (fun a b => urlToHost a ≠ urlToHost b)
      ∧ (∀ r ∈ uniqueByHost m, r ∈ m.map Prod.fst)
      ∧ (∀ r ∈ uniqueByHost m, ∀ x ∈ m.map Prod.fst,
          urlToHost x = urlToHost r → strLe r x = true) := by
  have hsort := sortStrs_sorted (m.map Prod.fst)
  have hperm := sortStrs_perm (m.map Prod.fst)
  refine ⟨?_, ?_, ?_⟩
  · exact uniqueByHostFold_pairwise _ [] [] (List.Pairwise.nil) (by intro r hr; cases hr)
  · intro r hr
    rcases uniqueByHostFold_mem _ [] [] hsort r hr with h | ⟨hmem, _, _, _⟩
    · cases h
    · exact hperm.mem_iff.mp hmem
  · intro r hr x hx heq
    rcases uniqueByHostFold_mem _ [] [] hsort r hr with h | ⟨_, _, _, hmin⟩
    · cases h
    · exact hmin x (hperm.mem_iff.mpr hx) heq

/-- Witness for C5 on a concrete write map: three endpoints over two
hosts; the selector keeps the smallest URL per host. -/
theorem uniqueByHost_spec_witness :
    uniqueByHost [("wss://b.com/x".toList, []), ("wss://b.com".toList, []),
        ("ws://a.com".toList, [])] = ["ws://a.com".toList, "wss://b.com".toList]
      ∧ ((uniqueByHost [("wss://b.com/x".toList, []), ("wss://b.com".toList, []),
          ("ws://a.com".toList, [])]).Pairwise (fun a b => urlToHost a ≠ urlToHost b)
        ∧ (∀ r ∈ uniqueByHost [("wss://b.com/x".toList, []), ("wss://b.com".toList, []),
            ("ws://a.com".toList, [])],
            r ∈ ([("wss://b.com/x".toList, ([] : List Str)), ("wss://b.com".toList, []),
              ("ws://a.com".toList, [])]).map Prod.fst)
        ∧ (∀ r ∈ uniqueByHost [("wss://b.com/x".toList, []), ("wss://b.com".toList, []),
            ("ws://a.com".toList, [])],
            ∀ x ∈ ([("wss://b.com/x".toList, ([] : List Str)), ("wss://b.com".toList, []),
              ("ws://a.com".toList, [])]).map Prod.fst,
            urlToHost x = urlToHost r → strLe r x = true)) :=
  ⟨by decide,
    uniqueByHost_spec [("wss://b.com/x".toList, []), ("wss://b.com".toList, []),
      ("ws://a.com".toList, [])]⟩

/-! ### C3: the write-index builder -/

theorem memPair_wmAdd (m : List (Str × List Str)) (url pk u k : Str) :
    memPair (wmAdd m url pk) u k ↔ memPair m u k ∨ (u = url ∧ k = pk) := by
  induction m with
  | nil =>
    simp only [wmAdd, memPair, List.mem_singleton, List.not_mem_nil]
    constructor
    · rintro ⟨p, hp, h1, h2⟩
      subst hp
      simp only [List.mem_singleton] at h2
      exact Or.inr ⟨h1.symm, h2⟩
    · rintro (⟨p, hp, _⟩ | ⟨h1, h2⟩)
      · exact absurd hp (by simp)
      · exact ⟨(url, [pk]), rfl, h1.symm, by simp [h2]⟩
  | cons p0 rest ih =>
    rcases p0 with ⟨u0, s0⟩
    by_cases h0 : u0 = url
    · simp only [wmAdd, if_pos h0]
      constructor
      · rintro ⟨p, hp, h1, h2⟩
        rcases List.mem_cons.mp hp with hph | hpr
        · subst hph
          simp only at h1 h2
          by_cases hin : pk ∈ s0
          · rw [if_pos hin] at h2
            exact Or.inl ⟨(u0, s0), List.mem_cons_self _ _, h1, h2⟩
          · rw [if_neg hin] at h2
            rcases List.mem_append.mp h2 with h2' | h2'
            · exact Or.inl ⟨(u0, s0), List.mem_cons_self _ _, h1, h2'⟩
            · exact Or.inr ⟨h1.symm.trans h0, List.mem_singleton.mp h2'⟩
        · exact Or.inl ⟨p, List.mem_cons_of_mem _ hpr, h1, h2⟩
      · rintro (⟨p, hp, h1, h2⟩ | ⟨h1, h2⟩)
        · rcases List.mem_cons.mp hp with hph | hpr
          · subst hph
            simp only at h1 h2
            refine ⟨(u0, if pk ∈ s0 then s0 else s0 ++ [pk]), List.mem_cons_self _ _, h1, ?_⟩
            by_cases hin : pk ∈ s0
            · rw [if_pos hin]; exact h2
            · rw [if_neg hin]; exact List.mem_append_left _ h2
          · exact ⟨p, List.mem_cons_of_mem _ hpr, h1, h2⟩
        · refine ⟨(u0, if pk ∈ s0 then s0 else s0 ++ [pk]), List.mem_cons_self _ _,
            h0.trans h1.symm, ?_⟩
          by_cases hin : pk ∈ s0
          · rw [if_pos hin, h2]; exact hin
          · rw [if_neg hin, h2]; exact List.mem_append_right _ (List.mem_singleton_self pk)
    · simp only [wmAdd, if_neg h0]
      constructor
      · rintro ⟨p, hp, h1, h2⟩
        rcases List.mem_cons.mp hp with hph | hpr
        · subst hph
          exact Or.inl ⟨(u0, s0), List.mem_cons_self _ _, h1, h2⟩
        · rcases ih.mp ⟨p, hpr, h1, h2⟩ with h | h
          · rcases h with ⟨q, hq, hq1, hq2⟩
            exact Or.inl ⟨q, List.mem_cons_of_mem _ hq, hq1, hq2⟩
          · exact Or.inr h
      · rintro (⟨p, hp, h1, h2⟩ | ⟨h1, h2⟩)
        · rcases List.mem_cons.mp hp with hph | hpr
          · subst hph
            exact ⟨(u0, s0), List.mem_cons_self _ _, h1, h2⟩
          · rcases ih.mpr (Or.inl ⟨p, hpr, h1, h2⟩) with ⟨q, hq, hq1, hq2⟩
            exact ⟨q, List.mem_cons_of_mem _ hq, hq1, hq2⟩
        · rcases ih.mpr (Or.inr ⟨h1, h2⟩) with ⟨q, hq, hq1, hq2⟩
          exact ⟨q, List.mem_cons_of_mem _ hq, hq1, hq2⟩

theorem tagStep_mem (ex : List Str) (pk : Str) (m : List (Str × List Str)) (tag : List Str)
    (u k : Str) :
    memPair (tagStep ex pk m tag) u k ↔ memPair m u k ∨ tagHit ex pk tag u k := by
  rcases tag with _ | ⟨t0, tag1⟩
  · have hno : ¬ tagHit ex pk [] u k := by
      rintro ⟨t1, ru, h0, _⟩
      simp at h0
    exact ⟨fun h => Or.inl h, fun h => h.elim id (fun hh => absurd hh hno)⟩
  rcases tag1 with _ | ⟨t1, rest⟩
  · have hno : ¬ tagHit ex pk [t0] u k := by
      rintro ⟨t1', ru, _, h1, _⟩
      simp at h1
    exact ⟨fun h => Or.inl h, fun h => h.elim id (fun hh => absurd hh hno)⟩
  by_cases hr : t0 = "r".toList
  · subst hr
    cases hparse : relayurlNew t1 with
    | none =>
      have hno : ¬ tagHit ex pk ("r".toList :: t1 :: rest) u k := by
        rintro ⟨t1', ru, h0, h1, hp, _⟩
        simp only [List.getElem?_cons_succ, List.getElem?_cons_zero] at h1
        injection h1 with h1
        subst h1
        rw [hparse] at hp
        cases hp
      have hstep : tagStep ex pk m ("r".toList :: t1 :: rest) = m := by
        simp only [tagStep, hparse, if_pos rfl, ite_self]
      rw [hstep]
      exact ⟨fun h => Or.inl h, fun h => h.elim id (fun hh => absurd hh hno)⟩
    | some ru =>
      by_cases hex : ru.host ∈ ex
      · have hno : ¬ tagHit ex pk ("r".toList :: t1 :: rest) u k := by
          rintro ⟨t1', ru', h0, h1, hp, hu, hho, _⟩
          simp only [List.getElem?_cons_succ, List.getElem?_cons_zero] at h1
          injection h1 with h1
          subst h1
          rw [hparse] at hp
          injection hp with hp
          subst hp
          exact hho hex
        have hstep : tagStep ex pk m ("r".toList :: t1 :: rest) = m := by
          simp only [tagStep, hparse, if_pos rfl, if_pos hex, ite_self]
        rw [hstep]
        exact ⟨fun h => Or.inl h, fun h => h.elim id (fun hh => absurd hh hno)⟩
      · by_cases hinbox : strContains ru.toStr ("/inbox".toList) = true
        · have hno : ¬ tagHit ex pk ("r".toList :: t1 :: rest) u k := by
            rintro ⟨t1', ru', h0, h1, hp, hu, hho, hib, _⟩
            simp only [List.getElem?_cons_succ, List.getElem?_cons_zero] at h1
            injection h1 with h1
            subst h1
            rw [hparse] at hp
            injection hp with hp
            subst hp
            rw [hu, hinbox] at hib
            cases hib
          have hstep : tagStep ex pk m ("r".toList :: t1 :: rest) = m := by
            simp only [tagStep, hparse, if_pos rfl, if_neg hex, if_pos hinbox, ite_self]
          rw [hstep]
          exact ⟨fun h => Or.inl h, fun h => h.elim id (fun hh => absurd hh hno)⟩
        · by_cases hmode : tagMode ("r".toList :: t1 :: rest) = "write".toList
              ∨ tagMode ("r".toList :: t1 :: rest) = []
          · have hstep : tagStep ex pk m ("r".toList :: t1 :: rest)
                = wmAdd m ru.toStr pk := by
              simp only [tagStep, hparse, if_pos rfl, if_neg hex, if_neg hinbox, if_pos hmode, ite_self, if_true]
            rw [hstep, memPair_wmAdd]
            constructor
            · rintro (h | ⟨h1, h2⟩)
              · exact Or.inl h
              · refine Or.inr ⟨t1, ru, by simp, by simp, hparse, h1, hex, ?_, hmode, h2⟩
                rw [h1]
                exact Bool.not_eq_true _ ▸ hinbox
            · rintro (h | ⟨t1', ru', h0, h1, hp, hu, hho, hib, hm, hk⟩)
              · exact Or.inl h
              · simp only [List.getElem?_cons_succ, List.getElem?_cons_zero] at h1
                injection h1 with h1
                subst h1
                rw [hparse] at hp
                injection hp with hp
                subst hp
                exact Or.inr ⟨hu, hk⟩
          · have hno : ¬ tagHit ex pk ("r".toList :: t1 :: rest) u k := by
              rintro ⟨t1', ru', h0, h1, hp, hu, hho, hib, hm, hk⟩
              exact hmode hm
            have hstep : tagStep ex pk m ("r".toList :: t1 :: rest) = m := by
              simp only [tagStep, hparse, if_pos rfl, if_neg hex, if_neg hinbox, if_neg hmode, ite_self]
            rw [hstep]
            exact ⟨fun h => Or.inl h, fun h => h.elim id (fun hh => absurd hh hno)⟩
  · have hno : ¬ tagHit ex pk (t0 :: t1 :: rest) u k := by
      rintro ⟨t1', ru, h0, _⟩
      simp only [List.getElem?_cons_zero] at h0
      injection h0 with h0
      exact hr h0
    have hstep : tagStep ex pk m (t0 :: t1 :: rest) = m := by
      simp only [tagStep, if_neg hr, ite_self]
    rw [hstep]
    exact ⟨fun h => Or.inl h, fun h => h.elim id (fun hh => absurd hh hno)⟩

theorem tagsFold_mem (ex : List Str) (pk : Str) (u k : Str) :
    ∀ (tags : List (List Str)) (m : List (Str × List Str)),
      memPair (tags.foldl (tagStep ex pk) m) u k
        ↔ memPair m u k ∨ ∃ tag ∈ tags, tagHit ex pk tag u k := by
  intro tags
  induction tags with
  | nil => intro m; simp
  | cons t ts ih =>
    intro m
    rw [List.foldl_cons, ih (tagStep ex pk m t), tagStep_mem]
    simp only [List.mem_cons, exists_eq_or_imp]
    tauto

theorem eventStep_mem (ex : List Str) (m : List (Str × List Str)) (ev : Event) (u k : Str) :
    memPair (eventStep ex m ev) u k ↔ memPair m u k ∨ evHit ex ev u k := by
  unfold eventStep evHit
  by_cases hk : ev.kind = 10002
  · rw [if_pos hk, tagsFold_mem]
    tauto
  · rw [if_neg hk]
    tauto

/-- C3: the built write index contains exactly the (endpoint, key) pairs
contributed by some kind-10002 record and some `r` tag of it whose URL
canonicalizes, whose host is not excluded, which is not an inbox path,
and whose role is write or unspecified; the key is the lowercased record
key.  In particular an excluded host never appears, and a read-role tag
never contributes. -/
theorem buildWriteMap_mem_iff (evs : List Event) (ex : List Str) (url k : Str) :
    memPair (buildWriteMap evs ex) url k ↔ ∃ ev ∈ evs, evHit ex ev url k := by
  have hstep : ∀ (l : List Event) (m : List (Str × List Str)),
      memPair (l.foldl (eventStep ex) m) url k
        ↔ memPair m url k ∨ ∃ ev ∈ l, evHit ex ev url k := by
    intro l
    induction l with
    | nil => intro m; simp
    | cons ev rest ih =>
      intro m
      rw [List.foldl_cons, ih (eventStep ex m ev), eventStep_mem]
      simp only [List.mem_cons, exists_eq_or_imp]
      tauto
  rw [buildWriteMap, hstep]
  have hempty : ¬ memPair [] url k := by
    rintro ⟨p, hp, _⟩
    cases hp
  tauto

/-- Witness for C3 on a concrete record batch: one write tag survives,
an excluded host and a read-role tag are dropped. -/
theorem buildWriteMap_mem_iff_witness :
    buildWriteMap
        [⟨10002, "AB".toList, 0,
          [["r".toList, "wss://Keep.Example/".toList],
            ["r".toList, "wss://bad.example".toList],
            ["r".toList, "wss://read.example".toList, "read".toList]]⟩]
        ["bad.example".toList]
      = [("wss://keep.example".toList, ["ab".toList])]
      ∧ (memPair (buildWriteMap
          [⟨10002, "AB".toList, 0,
            [["r".toList, "wss://Keep.Example/".toList],
              ["r".toList, "wss://bad.example".toList],
              ["r".toList, "wss://read.example".toList, "read".toList]]⟩]
          ["bad.example".toList]) ("wss://keep.example".toList) ("ab".toList)
        ↔ ∃ ev ∈ [(⟨10002, "AB".toList, 0,
            [["r".toList, "wss://Keep.Example/".toList],
              ["r".toList, "wss://bad.example".toList],
              ["r".toList, "wss://read.example".toList, "read".toList]]⟩ : Event)],
            evHit ["bad.example".toList] ev ("wss://keep.example".toList) ("ab".toList)) :=
  ⟨by decide,
    buildWriteMap_mem_iff
      [⟨10002, "AB".toList, 0,
        [["r".toList, "wss://Keep.Example/".toList],
          ["r".toList, "wss://bad.example".toList],
          ["r".toList, "wss://read.example".toList, "read".toList]]⟩]
      ["bad.example".toList] ("wss://keep.example".toList) ("ab".toList)⟩

/-! ### Character and trimming lemmas for the canonicalizer (C7) -/

theorem charToNat_ofNat (n : Nat) (h : n.isValidChar) : (Char.ofNat n).toNat = n := by
  unfold Char.ofNat
  rw [dif_pos h]
  unfold Char.ofNatAux Char.toNat
  simp [UInt32.toNat]

theorem isWhitespace_toLower (c : Char) :
    (Char.toLower c).isWhitespace = c.isWhitespace := by
  unfold Char.toLower
  dsimp only
  split_ifs with h
  · have hv : (Char.ofNat (c.toNat + 32)).toNat = c.toNat + 32 :=
      charToNat_ofNat _ (Or.inl (by omega))
    have hL : (Char.ofNat (c.toNat + 32)).isWhitespace = false := by
      unfold Char.isWhitespace
      simp only [Bool.or_eq_false_iff, decide_eq_false_iff_not]
      refine ⟨⟨⟨?_, ?_⟩, ?_⟩, ?_⟩ <;> intro heq <;>
        · have h32 := congrArg Char.toNat heq
          rw [hv] at h32
          simp only [show (' ' : Char).toNat = 32 from rfl,
            show ('\t' : Char).toNat = 9 from rfl, show ('\x0d' : Char).toNat = 13 from rfl,
            show ('\n' : Char).toNat = 10 from rfl] at h32
          omega
    have hR : c.isWhitespace = false := by
      unfold Char.isWhitespace
      simp only [Bool.or_eq_false_iff, decide_eq_false_iff_not]
      refine ⟨⟨⟨?_, ?_⟩, ?_⟩, ?_⟩ <;> intro heq <;>
        · have h32 := congrArg Char.toNat heq
          simp only [show (' ' : Char).toNat = 32 from rfl,
            show ('\t' : Char).toNat = 9 from rfl, show ('\x0d' : Char).toNat = 13 from rfl,
            show ('\n' : Char).toNat = 10 from rfl] at h32
          omega
    rw [hL, hR]
  · rfl

theorem toLower_toLower (c : Char) :
    Char.toLower (Char.toLower c) = Char.toLower c := by
  by_cases h : c.toNat ≥ 65 ∧ c.toNat ≤ 90
  · have h1 : Char.toLower c = Char.ofNat (c.toNat + 32) := by
      unfold Char.toLower
      rw [if_pos h]
    have hv : (Char.ofNat (c.toNat + 32)).toNat = c.toNat + 32 :=
      charToNat_ofNat _ (Or.inl (by omega))
    rw [h1]
    unfold Char.toLower
    dsimp only
    rw [if_neg (by rw [hv]; omega)]
  · have h1 : Char.toLower c = c := by
      unfold Char.toLower
      dsimp only
      rw [if_neg h]
    rw [h1, h1]

theorem toLower_eq_slash (c : Char) : Char.toLower c = '/' ↔ c = '/' := by
  constructor
  · intro h
    by_cases hc : c.toNat ≥ 65 ∧ c.toNat ≤ 90
    · have h1 : Char.toLower c = Char.ofNat (c.toNat + 32) := by
        unfold Char.toLower
        rw [if_pos hc]
      have hv : (Char.ofNat (c.toNat + 32)).toNat = c.toNat + 32 :=
        charToNat_ofNat _ (Or.inl (by omega))
      rw [h1] at h
      have h47 := congrArg Char.toNat h
      rw [hv] at h47
      simp only [show ('/' : Char).toNat = 47 from rfl] at h47
      omega
    · have h1 : Char.toLower c = c := by
        unfold Char.toLower
        dsimp only
        rw [if_neg hc]
      rw [h1] at h
      exact h
  · intro h
    subst h
    decide

theorem dropWhile_all_false {p : Char → Bool} {l : Str} (h : ∀ c ∈ l, p c = false) :
    l.dropWhile p = l := by
  cases l with
  | nil => rfl
  | cons a t =>
    rw [List.dropWhile_cons, if_neg]
    rw [h a (List.mem_cons_self _ _)]
    simp

theorem dropWhile_all_true {p : Char → Bool} :
    ∀ {w : Str}, (∀ c ∈ w, p c = true) → ∀ x : Str, (w ++ x).dropWhile p = x.dropWhile p := by
  intro w
  induction w with
  | nil => intro _ x; rfl
  | cons a t ih =>
    intro h x
    rw [List.cons_append, List.dropWhile_cons, if_pos (by rw [h a (List.mem_cons_self _ _)]),
      ih (fun c hc => h c (List.mem_cons_of_mem _ hc)) x]

theorem trimL_id {l : Str} (h : ∀ c ∈ l, c.isWhitespace = false) : trimL l = l :=
  dropWhile_all_false h

theorem trimR_id {l : Str} (h : ∀ c ∈ l, c.isWhitespace = false) : trimR l = l := by
  unfold trimR
  rw [dropWhile_all_false (fun c hc => h c (List.mem_reverse.mp hc)), List.reverse_reverse]

theorem trimS_id {l : Str} (h : ∀ c ∈ l, c.isWhitespace = false) : trimS l = l := by
  unfold trimS
  rw [trimL_id h, trimR_id h]

theorem trimL_ws_append {w : Str} (hw : ∀ c ∈ w, c.isWhitespace = true) (x : Str) :
    trimL (w ++ x) = trimL x :=
  dropWhile_all_true hw x

theorem trimR_ws_append {w : Str} (hw : ∀ c ∈ w, c.isWhitespace = true) (x : Str) :
    trimR (x ++ w) = trimR x := by
  unfold trimR
  rw [List.reverse_append, dropWhile_all_true (fun c hc => hw c (List.mem_reverse.mp hc))]

theorem trimS_sandwich {w1 w2 : Str} (h1 : ∀ c ∈ w1, c.isWhitespace = true)
    (h2 : ∀ c ∈ w2, c.isWhitespace = true) (s : Str) :
    trimS (w1 ++ s ++ w2) = trimS s := by
  unfold trimS
  rw [List.append_assoc, trimL_ws_append h1]
  unfold trimL
  rw [List.dropWhile_append]
  by_cases he : (s.dropWhile Char.isWhitespace).isEmpty = true
  · rw [if_pos he]
    have h2' : w2.dropWhile Char.isWhitespace = [] := by
      rw [List.dropWhile_eq_nil_iff]
      exact h2
    rw [h2', List.isEmpty_iff.mp he]
  · rw [if_neg he]
    exact trimR_ws_append h2 _

theorem lowerStr_trimL (x : Str) : lowerStr (trimL x) = trimL (lowerStr x) := by
  unfold trimL lowerStr
  rw [List.dropWhile_map]
  have hfun : (Char.isWhitespace ∘ Char.toLower) = Char.isWhitespace :=
    funext isWhitespace_toLower
  rw [hfun]

theorem lowerStr_trimR (x : Str) : lowerStr (trimR x) = trimR (lowerStr x) := by
  unfold trimR lowerStr
  rw [← List.map_reverse, List.dropWhile_map, ← List.map_reverse]
  have hfun : (Char.isWhitespace ∘ Char.toLower) = Char.isWhitespace :=
    funext isWhitespace_toLower
  rw [hfun]

theorem lowerStr_trimS (x : Str) : lowerStr (trimS x) = trimS (lowerStr x) := by
  unfold trimS
  rw [lowerStr_trimR, lowerStr_trimL]

theorem lowerStr_lowerStr (x : Str) : lowerStr (lowerStr x) = lowerStr x := by
  unfold lowerStr
  rw [List.map_map]
  exact List.map_congr_left (fun c _ => toLower_toLower c)

theorem lowerStr_trimSlash (x : Str) : lowerStr (trimSlash x) = trimSlash (lowerStr x) := by
  have hlm : (lowerStr x).getLast? = Option.map Char.toLower x.getLast? :=
    List.getLast?_map _ _
  unfold trimSlash
  by_cases h : x.getLast? = some '/'
  · rw [if_pos h, if_pos (by rw [hlm, h]; rfl)]
    exact List.map_dropLast _ _
  · rw [if_neg h, if_neg]
    rw [hlm]
    intro hc
    cases hx : x.getLast? with
    | none => rw [hx] at hc; simp at hc
    | some c =>
      rw [hx] at hc
      simp only [Option.map_some'] at hc
      injection hc with hc
      exact h (hx ▸ congrArg some ((toLower_eq_slash c).mp hc))

theorem allowed_not_ws {c : Char} (h : allowedChar c = true) : c.isWhitespace = false := by
  cases hws : c.isWhitespace
  · rfl
  · have hmem : c = ' ' ∨ c = '\t' ∨ c = '\x0d' ∨ c = '\n' := by
      have := hws
      unfold Char.isWhitespace at this
      simp only [Bool.or_eq_true, decide_eq_true_eq] at this
      tauto
    rcases hmem with h1 | h1 | h1 | h1 <;> subst h1 <;> exact absurd h (by decide)

theorem mkRelayURL_shape {scheme rest : Str} {u : RelayURL}
    (h : mkRelayURL scheme rest = some u) :
    u = ⟨scheme, rest.takeWhile (· ≠ '/'), rest.dropWhile (· ≠ '/')⟩ := by
  unfold mkRelayURL at h
  dsimp only at h
  by_cases h1 : rest.any (fun c => c = '?' || c = '#') = true
  · rw [if_pos h1] at h
    cases h
  · rw [if_neg h1] at h
    by_cases h2 : ((rest.takeWhile (· ≠ '/')).reverse.takeWhile (· ≠ '@')).reverse = ([] : Str)
    · rw [if_pos h2] at h
      cases h
    · rw [if_neg h2] at h
      injection h with h
      exact h.symm

theorem relayurlParse_toStr {raw : Str} {u : RelayURL} (h : relayurlParse raw = some u) :
    u.toStr = raw ∧ raw.all allowedChar = true := by
  unfold relayurlParse at h
  by_cases h1 : raw = ([] : Str)
  · rw [if_pos h1] at h
    cases h
  rw [if_neg h1] at h
  by_cases h2 : ¬ raw.all allowedChar = true
  · rw [if_pos h2] at h
    cases h
  rw [if_neg h2] at h
  have hall : raw.all allowedChar = true := not_not.mp h2
  by_cases h3 : ("wss://".toList).isPrefixOf raw = true
  case pos =>
    rw [if_pos h3] at h
    refine ⟨?_, hall⟩
    obtain ⟨t, ht⟩ := List.isPrefixOf_iff_prefix.mp h3
    have hdrop : raw.drop 6 = t := by
      rw [← ht, show (6 : Nat) = ("wss://".toList).length from rfl, List.drop_left]
    have hshape := mkRelayURL_shape h
    subst hshape
    unfold RelayURL.toStr
    dsimp only
    rw [List.append_assoc ("wss".toList ++ (':' :: '/' :: '/' :: [])),
      List.takeWhile_append_dropWhile, hdrop, ← ht]
    rfl
  case neg =>
    rw [if_neg h3] at h
    by_cases h4 : ("ws://".toList).isPrefixOf raw = true
    case neg =>
      rw [if_neg h4] at h
      cases h
    rw [if_pos h4] at h
    refine ⟨?_, hall⟩
    obtain ⟨t, ht⟩ := List.isPrefixOf_iff_prefix.mp h4
    have hdrop : raw.drop 5 = t := by
      rw [← ht, show (5 : Nat) = ("ws://".toList).length from rfl, List.drop_left]
    have hshape := mkRelayURL_shape h
    subst hshape
    unfold RelayURL.toStr
    dsimp only
    rw [List.append_assoc ("ws".toList ++ (':' :: '/' :: '/' :: [])),
      List.takeWhile_append_dropWhile, hdrop, ← ht]
    rfl

theorem relayurlNew_toStr {s : Str} {u : RelayURL} (h : relayurlNew s = some u) :
    u.toStr = trimSlash (lowerStr (trimS s)) ∧ u.toStr.all allowedChar = true := by
  unfold relayurlNew at h
  obtain ⟨h1, h2⟩ := relayurlParse_toStr h
  exact ⟨h1, h1 ▸ h2⟩

theorem toStr_lower_fixed {s : Str} {u : RelayURL} (h : relayurlNew s = some u) :
    lowerStr u.toStr = u.toStr := by
  obtain ⟨h1, _⟩ := relayurlNew_toStr h
  rw [h1, lowerStr_trimSlash, lowerStr_lowerStr]

theorem toStr_trim_fixed {s : Str} {u : RelayURL} (h : relayurlNew s = some u) :
    trimS u.toStr = u.toStr := by
  obtain ⟨_, h2⟩ := relayurlNew_toStr h
  exact trimS_id (fun c hc => allowed_not_ws (by
    have := List.all_eq_true.mp h2 c hc
    exact this))

theorem length_dropWhile_le (p : Char → Bool) (l : Str) :
    (l.dropWhile p).length ≤ l.length :=
  (List.dropWhile_suffix p).sublist.length_le

theorem trimS_eq_self {s : Str} (h : trimS s = s) : trimL s = s ∧ trimR s = s := by
  have h1 : (trimL s).length ≤ s.length := length_dropWhile_le _ s
  have h2 : (trimR (trimL s)).length ≤ (trimL s).length := by
    unfold trimR
    rw [List.length_reverse]
    calc (List.dropWhile Char.isWhitespace (trimL s).reverse).length
        ≤ (trimL s).reverse.length := length_dropWhile_le _ _
      _ = (trimL s).length := List.length_reverse _
  have hlen : (trimS s).length = s.length := by rw [h]
  unfold trimS at hlen
  have hL : trimL s = s := by
    apply List.Sublist.eq_of_length (List.dropWhile_suffix _).sublist
    show (trimL s).length = s.length
    omega
  refine ⟨hL, ?_⟩
  have := h
  unfold trimS at this
  rw [hL] at this
  exact this

theorem trimR_concat_slash (s : Str) : trimR (s ++ ['/']) = s ++ ['/'] := by
  unfold trimR
  rw [List.reverse_append]
  simp only [List.reverse_cons, List.reverse_nil, List.nil_append, List.singleton_append]
  rw [List.dropWhile_cons, if_neg (by simp)]
  rw [List.reverse_cons, List.reverse_reverse]

/-- C7 (amended): on its accepted domain the canonicalizer is idempotent
whenever its output does not end in a slash, and is invariant under
letter case, surrounding white space, and the addition of one trailing
slash to a trimmed, non-slash-terminated input.  (Idempotence fails when
the canonical output itself ends in a slash; see the counterexample.) -/
theorem canonicalize_idempotent_amended (s : Str) (u : RelayURL)
    (h : relayurlNew s = some u) :
    (u.toStr.getLast? ≠ some '/' → relayurlNew u.toStr = some u)
      ∧ (∀ t, lowerStr t = lowerStr s → relayurlNew t = relayurlNew s)
      ∧ (∀ w1 w2 : Str, (∀ c ∈ w1, c.isWhitespace = true) →
          (∀ c ∈ w2, c.isWhitespace = true) →
          relayurlNew (w1 ++ s ++ w2) = relayurlNew s)
      ∧ (trimS s = s → s.getLast? ≠ some '/' → relayurlNew (s ++ ['/']) = relayurlNew s) := by
  refine ⟨?_, ?_, ?_, ?_⟩
  · intro hlast
    unfold relayurlNew
    rw [toStr_trim_fixed h, toStr_lower_fixed h,
      show trimSlash u.toStr = u.toStr from by unfold trimSlash; rw [if_neg hlast]]
    obtain ⟨h1, _⟩ := relayurlNew_toStr h
    rw [h1]
    unfold relayurlNew at h
    exact h
  · intro t ht
    unfold relayurlNew
    rw [lowerStr_trimS, lowerStr_trimS, ht]
  · intro w1 w2 hw1 hw2
    unfold relayurlNew
    rw [trimS_sandwich hw1 hw2]
  · intro htr hlast
    have hs : s ≠ [] := by
      rintro rfl
      rw [show relayurlNew ([] : Str) = none by decide] at h
      cases h
    obtain ⟨hL, _⟩ := trimS_eq_self htr
    have htrim2 : trimS (s ++ ['/']) = s ++ ['/'] := by
      unfold trimS
      have hL2 : trimL (s ++ ['/']) = s ++ ['/'] := by
        unfold trimL
        rw [List.dropWhile_append]
        have : (s.dropWhile Char.isWhitespace).isEmpty = false := by
          rw [show s.dropWhile Char.isWhitespace = trimL s from rfl, hL]
          cases s with
          | nil => exact absurd rfl hs
          | cons a t => rfl
        rw [this]
        simp only [Bool.false_eq_true, if_false]
        rw [show s.dropWhile Char.isWhitespace = trimL s from rfl, hL]
      rw [hL2]
      exact trimR_concat_slash s
    unfold relayurlNew
    rw [htrim2, htr]
    have hlower : lowerStr (s ++ ['/']) = lowerStr s ++ ['/'] := by
      unfold lowerStr
      rw [List.map_append]
      rfl
    rw [hlower]
    have hslash1 : trimSlash (lowerStr s ++ ['/']) = lowerStr s := by
      unfold trimSlash
      rw [List.getLast?_concat, if_pos rfl, List.dropLast_concat]
    have hslash2 : trimSlash (lowerStr s) = lowerStr s := by
      unfold trimSlash
      rw [if_neg]
      intro hc
      rw [show lowerStr s = List.map Char.toLower s from rfl, List.getLast?_map] at hc
      cases hx : s.getLast? with
      | none => rw [hx] at hc; cases hc
      | some c =>
        rw [hx] at hc
        simp only [Option.map_some'] at hc
        injection hc with hc
        exact hlast (hx ▸ congrArg some ((toLower_eq_slash c).mp hc))
    rw [hslash1, hslash2]

/-- Witness for C7 (amended): a concrete mixed-case padded input. -/
theorem canonicalize_idempotent_amended_witness :
    relayurlNew ("  WSS://A.Example/Feed  ".toList)
        = some ⟨"wss".toList, "a.example".toList, "/feed".toList⟩
      ∧ ((RelayURL.toStr ⟨"wss".toList, "a.example".toList, "/feed".toList⟩).getLast?
            ≠ some '/' →
          relayurlNew (RelayURL.toStr ⟨"wss".toList, "a.example".toList, "/feed".toList⟩)
            = some ⟨"wss".toList, "a.example".toList, "/feed".toList⟩)
      ∧ (∀ t, lowerStr t = lowerStr ("  WSS://A.Example/Feed  ".toList) →
          relayurlNew t = relayurlNew ("  WSS://A.Example/Feed  ".toList))
      ∧ (∀ w1 w2 : Str, (∀ c ∈ w1, c.isWhitespace = true) →
          (∀ c ∈ w2, c.isWhitespace = true) →
          relayurlNew (w1 ++ "  WSS://A.Example/Feed  ".toList ++ w2)
            = relayurlNew ("  WSS://A.Example/Feed  ".toList))
      ∧ (trimS ("  WSS://A.Example/Feed  ".toList) = "  WSS://A.Example/Feed  ".toList →
          ("  WSS://A.Example/Feed  ".toList : Str).getLast? ≠ some '/' →
          relayurlNew ("  WSS://A.Example/Feed  ".toList ++ ['/'])
            = relayurlNew ("  WSS://A.Example/Feed  ".toList)) := by
  refine ⟨by decide, ?_⟩
  have h := canonicalize_idempotent_amended ("  WSS://A.Example/Feed  ".toList)
    ⟨"wss".toList, "a.example".toList, "/feed".toList⟩ (by decide)
  exact h

/-- Counterexample to C7 as stated: the accepted input
`wss://a.example//` canonicalizes to `wss://a.example/`, but
canonicalizing that output strips one more slash and yields
`wss://a.example`, not the same value. -/
theorem canonicalize_not_idempotent :
    relayurlNew ("wss://a.example//".toList)
        = some ⟨"wss".toList, "a.example".toList, "/".toList⟩
      ∧ RelayURL.toStr ⟨"wss".toList, "a.example".toList, "/".toList⟩
        = "wss://a.example/".toList
      ∧ relayurlNew (RelayURL.toStr ⟨"wss".toList, "a.example".toList, "/".toList⟩)
        = some ⟨"wss".toList, "a.example".toList, []⟩
      ∧ RelayURL.toStr ⟨"wss".toList, "a.example".toList, []⟩
        ≠ RelayURL.toStr ⟨"wss".toList, "a.example".toList, "/".toList⟩ := by
  refine ⟨by decide, by decide, by decide, by decide⟩

/-! ### The greedy selection scan (C1) -/

theorem maxGain_cons (r : Str) (order : List Str) (g : Str → Nat) :
    maxGain (r :: order) g = max (g r) (maxGain order g) := rfl

theorem le_maxGain (g : Str → Nat) :
    ∀ (order : List Str), ∀ r ∈ order, g r ≤ maxGain order g := by
  intro order
  induction order with
  | nil => intro r hr; cases hr
  | cons x rest ih =>
    intro r hr
    rw [maxGain_cons]
    rcases List.mem_cons.mp hr with h | h
    · subst h; exact Nat.le_max_left _ _
    · exact le_trans (ih r h) (Nat.le_max_right _ _)

theorem maxGain_attained (g : Str → Nat) :
    ∀ (order : List Str), 0 < maxGain order g → ∃ r ∈ order, g r = maxGain order g := by
  intro order
  induction order with
  | nil => intro h; cases h
  | cons x rest ih =>
    intro h
    rw [maxGain_cons] at h ⊢
    rcases Nat.le_total (maxGain rest g) (g x) with hle | hle
    · exact ⟨x, List.mem_cons_self _ _, (Nat.max_eq_left hle).symm⟩
    · rcases ih (by omega) with ⟨r, hr, hgr⟩
      exact ⟨r, List.mem_cons_of_mem _ hr, by rw [hgr, Nat.max_eq_right hle]⟩

theorem pickBestAux_eq (g : Str → Nat) :
    ∀ (order : List Str) (acc : Str × Nat),
      order.foldl (fun b r => if b.2 < g r then (r, g r) else b) acc
        = if acc.2 < maxGain order g
          then (((order.find? (fun r => decide (maxGain order g ≤ g r))).getD acc.1),
            maxGain order g)
          else acc := by
  intro order
  induction order with
  | nil =>
    intro acc
    rw [if_neg]
    · rfl
    · show ¬ acc.2 < 0
      omega
  | cons x rest ih =>
    intro acc
    rw [List.foldl_cons, maxGain_cons]
    by_cases hx : acc.2 < g x
    · rw [if_pos hx, ih (x, g x)]
      by_cases hrest : g x < maxGain rest g
      · have hmax : max (g x) (maxGain rest g) = maxGain rest g := Nat.max_eq_right (by omega)
        rw [if_pos (show (x, g x).2 < maxGain rest g from hrest), hmax,
          if_pos (show acc.2 < maxGain rest g by omega),
          List.find?_cons_of_neg _ (by simp only [decide_eq_true_eq]; omega)]
        obtain ⟨r0, hr0, hgr0⟩ := maxGain_attained g rest (by omega)
        have hsome : (rest.find? (fun r => decide (maxGain rest g ≤ g r))).isSome := by
          rw [List.find?_isSome]
          exact ⟨r0, hr0, by simp [hgr0]⟩
        obtain ⟨rf, hrf⟩ := Option.isSome_iff_exists.mp hsome
        rw [hrf]
        rfl
      · have hmax : max (g x) (maxGain rest g) = g x := Nat.max_eq_left (by omega)
        rw [if_neg (show ¬ (x, g x).2 < maxGain rest g from hrest), hmax,
          if_pos (show acc.2 < g x from hx),
          List.find?_cons_of_pos _ (by simp only [decide_eq_true_eq]; exact le_rfl)]
        rfl
    · rw [if_neg hx, ih acc]
      by_cases hrest : acc.2 < maxGain rest g
      · have hmax : max (g x) (maxGain rest g) = maxGain rest g := Nat.max_eq_right (by omega)
        rw [if_pos hrest, hmax, if_pos hrest,
          List.find?_cons_of_neg _ (by simp only [decide_eq_true_eq]; omega)]
      · rw [if_neg hrest, if_neg (show ¬ acc.2 < max (g x) (maxGain rest g) by
          rcases Nat.le_total (g x) (maxGain rest g) with hh | hh
          · rw [Nat.max_eq_right hh]; omega
          · rw [Nat.max_eq_left hh]; omega)]

theorem pickBest_eq (order : List Str) (g : Str → Nat) :
    pickBest order g
      = if 0 < maxGain order g
        then (((order.find? (fun r => decide (maxGain order g ≤ g r))).getD []),
          maxGain order g)
        else ([], 0) := by
  unfold pickBest
  rw [pickBestAux_eq]

theorem pickBest_zero (order : List Str) (g : Str → Nat)
    (h : (pickBest order g).2 = 0) : ∀ r ∈ order, g r = 0 := by
  intro r hr
  rw [pickBest_eq] at h
  by_cases hm : 0 < maxGain order g
  · rw [if_pos hm] at h
    simp only [] at h
    omega
  · have := le_maxGain g order r hr
    omega

theorem pickBest_pos (order : List Str) (g : Str → Nat)
    (h : 0 < (pickBest order g).2) :
    (pickBest order g).1 ∈ order ∧ g (pickBest order g).1 = (pickBest order g).2 := by
  rw [pickBest_eq] at h ⊢
  by_cases hm : 0 < maxGain order g
  · rw [if_pos hm] at h ⊢
    obtain ⟨r0, hr0, hgr0⟩ := maxGain_attained g order hm
    have hfind : (order.find? (fun r => decide (maxGain order g ≤ g r))).isSome := by
      rw [List.find?_isSome]
      exact ⟨r0, hr0, by simp [hgr0]⟩
    obtain ⟨rf, hrf⟩ := Option.isSome_iff_exists.mp hfind
    rw [hrf]
    simp only [Option.getD_some]
    have hmem := List.mem_of_find?_eq_some hrf
    have hpred := List.find?_some hrf
    simp only [decide_eq_true_eq] at hpred
    exact ⟨hmem, le_antisymm (le_maxGain g order rf hmem) hpred⟩
  · rw [if_neg hm] at h
    simp at h

/-- C1 (amended): the selection step of the greedy assigner is a pure
function of the map content together with its enumeration order: it
returns the first relay in enumeration order attaining the largest
marginal gain.  Two runs that enumerate the relay map in the same order
therefore coincide; but a gain tie between two relays is broken by
enumeration position, which Go map iteration randomizes, so runs over
the same map content with different enumeration orders can differ. -/
theorem greedy_selection_first_max (m : List (Str × List Str)) (st : GState)
    (h : 0 < (pickBest (keysOf m) (gainOf m st)).2) :
    pickBest (keysOf m) (gainOf m st)
      = (((keysOf m).find?
            (fun r => decide (maxGain (keysOf m) (gainOf m st) ≤ gainOf m st r))).getD [],
          maxGain (keysOf m) (gainOf m st)) := by
  rw [pickBest_eq] at h ⊢
  by_cases hm : 0 < maxGain (keysOf m) (gainOf m st)
  · rw [if_pos hm]
  · rw [if_neg hm] at h
    simp at h

/-- Witness for C1 (amended) on a two-relay tie: the scan returns the
first relay of the enumeration. -/
theorem greedy_selection_first_max_witness :
    0 < (pickBest
        (keysOf [("wss://a.example".toList, ["k1".toList]),
          ("wss://b.example".toList, ["k1".toList])])
        (gainOf [("wss://a.example".toList, ["k1".toList]),
          ("wss://b.example".toList, ["k1".toList])]
          (greedyInit [("wss://a.example".toList, ["k1".toList]),
            ("wss://b.example".toList, ["k1".toList])] 1))).2
      ∧ pickBest
          (keysOf [("wss://a.example".toList, ["k1".toList]),
            ("wss://b.example".toList, ["k1".toList])])
          (gainOf [("wss://a.example".toList, ["k1".toList]),
            ("wss://b.example".toList, ["k1".toList])]
            (greedyInit [("wss://a.example".toList, ["k1".toList]),
              ("wss://b.example".toList, ["k1".toList])] 1))
        = (((keysOf [("wss://a.example".toList, ["k1".toList]),
              ("wss://b.example".toList, ["k1".toList])]).find?
              (fun r => decide (maxGain
                  (keysOf [("wss://a.example".toList, ["k1".toList]),
                    ("wss://b.example".toList, ["k1".toList])])
                  (gainOf [("wss://a.example".toList, ["k1".toList]),
                    ("wss://b.example".toList, ["k1".toList])]
                    (greedyInit [("wss://a.example".toList, ["k1".toList]),
                      ("wss://b.example".toList, ["k1".toList])] 1))
                ≤ gainOf [("wss://a.example".toList, ["k1".toList]),
                    ("wss://b.example".toList, ["k1".toList])]
                    (greedyInit [("wss://a.example".toList, ["k1".toList]),
                      ("wss://b.example".toList, ["k1".toList])] 1) r))).getD [],
            maxGain (keysOf [("wss://a.example".toList, ["k1".toList]),
                ("wss://b.example".toList, ["k1".toList])])
              (gainOf [("wss://a.example".toList, ["k1".toList]),
                  ("wss://b.example".toList, ["k1".toList])]
                (greedyInit [("wss://a.example".toList, ["k1".toList]),
                  ("wss://b.example".toList, ["k1".toList])] 1))) :=
  ⟨by decide,
    greedy_selection_first_max
      [("wss://a.example".toList, ["k1".toList]), ("wss://b.example".toList, ["k1".toList])]
      (greedyInit [("wss://a.example".toList, ["k1".toList]),
        ("wss://b.example".toList, ["k1".toList])] 1)
      (by decide)⟩

/-- Counterexample to C1 as stated: two enumerations of the same
relay-to-authors map content (the same two entries, permuted, i.e. the
same Go map under two iteration orders) produce different
selected-endpoint lists, because the gain tie between the two relays is
broken in favour of whichever the enumeration yields first. -/
theorem greedy_not_permutation_invariant :
    ([("wss://a.example".toList, ["k1".toList]), ("wss://b.example".toList, ["k1".toList])] :
        List (Str × List Str)).Perm
      [("wss://b.example".toList, ["k1".toList]), ("wss://a.example".toList, ["k1".toList])]
      ∧ (greedySelectAndAssignN
            [("wss://a.example".toList, ["k1".toList]),
              ("wss://b.example".toList, ["k1".toList])] 1).1
        ≠ (greedySelectAndAssignN
            [("wss://b.example".toList, ["k1".toList]),
              ("wss://a.example".toList, ["k1".toList])] 1).1 :=
  ⟨by decide, by decide⟩

/-! ### Step lemmas for the greedy assignment loop (C2, C10) -/

theorem assignOne_selected (r : Str) (st : GState) (a : Str) :
    (assignOne r st a).selected = st.selected := by
  unfold assignOne
  split_ifs <;> rfl

theorem foldAssign_selected (r : Str) :
    ∀ (l : List Str) (st : GState), (l.foldl (assignOne r) st).selected = st.selected := by
  intro l
  induction l with
  | nil => intro st; rfl
  | cons x rest ih =>
    intro st
    rw [List.foldl_cons, ih, assignOne_selected]

theorem assignOne_need_le (r : Str) (st : GState) (a x : Str) :
    (assignOne r st a).need x ≤ st.need x := by
  unfold assignOne
  split_ifs
  · exact le_rfl
  · exact le_rfl
  · dsimp only
    split_ifs
    · exact Nat.sub_le _ _
    · exact le_rfl

theorem foldAssign_need_le (r : Str) :
    ∀ (l : List Str) (st : GState) (x : Str),
      (l.foldl (assignOne r) st).need x ≤ st.need x := by
  intro l
  induction l with
  | nil => intro st x; exact le_rfl
  | cons y rest ih =>
    intro st x
    rw [List.foldl_cons]
    exact le_trans (ih _ x) (assignOne_need_le r st y x)

theorem foldAssign_need_zero (r : Str) (l : List Str) (st : GState) (x : Str)
    (h : st.need x = 0) : (l.foldl (assignOne r) st).need x = 0 :=
  Nat.le_zero.mp (h ▸ foldAssign_need_le r l st x)

theorem assignOne_aset_mono (r : Str) (st : GState) (a r' b : Str)
    (h : st.aset r' b = true) : (assignOne r st a).aset r' b = true := by
  unfold assignOne
  split_ifs
  · exact h
  · exact h
  · dsimp only
    split_ifs with hc
    · rfl
    · exact h

theorem foldAssign_aset_mono (r : Str) :
    ∀ (l : List Str) (st : GState) (r' b : Str),
      st.aset r' b = true → (l.foldl (assignOne r) st).aset r' b = true := by
  intro l
  induction l with
  | nil => intro st r' b h; exact h
  | cons y rest ih =>
    intro st r' b h
    rw [List.foldl_cons]
    exact ih _ r' b (assignOne_aset_mono r st y r' b h)

theorem foldAssign_covers (r : Str) :
    ∀ (l : List Str) (st : GState), ∀ a ∈ l,
      (l.foldl (assignOne r) st).need a = 0 ∨ (l.foldl (assignOne r) st).aset r a = true := by
  intro l
  induction l with
  | nil => intro st a ha; cases ha
  | cons x rest ih =>
    intro st a ha
    rw [List.foldl_cons]
    rcases List.mem_cons.mp ha with hax | har
    · subst hax
      have hstep : (assignOne r st a).need a = 0 ∨ (assignOne r st a).aset r a = true := by
        unfold assignOne
        split_ifs with h1 h2
        · exact Or.inl h1
        · exact Or.inr h2
        · right
          dsimp only
          rw [if_pos ⟨rfl, rfl⟩]
      rcases hstep with h | h
      · exact Or.inl (foldAssign_need_zero r rest _ a h)
      · exact Or.inr (foldAssign_aset_mono r rest _ r a h)
    · exact ih _ a har

theorem lookupAL_sub_authors :
    ∀ (m : List (Str × List Str)) (r a : Str), a ∈ lookupAL m r → a ∈ authorsOf m := by
  intro m
  induction m with
  | nil => intro r a h; cases h
  | cons p rest ih =>
    intro r a h
    unfold lookupAL at h
    have hauth : authorsOf (p :: rest) = p.2 ++ authorsOf rest := by
      unfold authorsOf
      rw [List.map_cons, List.flatten_cons]
    rw [hauth]
    by_cases hp : p.1 = r
    · rw [if_pos hp] at h
      exact List.mem_append_left _ h
    · rw [if_neg hp] at h
      exact List.mem_append_right _ (ih r a h)

theorem sum_map_dec (f : Str → Nat) (a : Str) :
    ∀ (l : List Str), l.Nodup → a ∈ l → 0 < f a →
      (l.map (fun x => if x = a then f x - 1 else f x)).sum < (l.map f).sum := by
  intro l
  induction l with
  | nil => intro _ ha; cases ha
  | cons y rest ih =>
    intro hnd ha hf
    rw [List.map_cons, List.map_cons, List.sum_cons, List.sum_cons]
    rcases List.mem_cons.mp ha with hya | har
    · subst hya
      have hrest : rest.map (fun x => if x = a then f x - 1 else f x) = rest.map f :=
        List.map_congr_left (fun x hx => by
          rw [if_neg]
          intro hh
          exact (List.nodup_cons.mp hnd).1 (hh ▸ hx))
      rw [if_pos rfl, hrest]
      have := (List.nodup_cons.mp hnd).1
      omega
    · have hne : y ≠ a := by
        rintro rfl
        exact (List.nodup_cons.mp hnd).1 har
      rw [if_neg hne]
      have := ih (List.nodup_cons.mp hnd).2 har hf
      omega

theorem needSum_assignOne_le (m : List (Str × List Str)) (r : Str) (st : GState) (a : Str) :
    needSum m (assignOne r st a) ≤ needSum m st :=
  List.sum_le_sum (fun x _ => assignOne_need_le r st a x)

theorem needSum_foldAssign_le (m : List (Str × List Str)) (r : Str) :
    ∀ (l : List Str) (st : GState),
      needSum m (l.foldl (assignOne r) st) ≤ needSum m st := by
  intro l
  induction l with
  | nil => intro st; exact le_rfl
  | cons x rest ih =>
    intro st
    rw [List.foldl_cons]
    exact le_trans (ih _) (needSum_assignOne_le m r st x)

theorem needSum_assignOne_lt (m : List (Str × List Str)) (r : Str) (st : GState) (a : Str)
    (hmem : a ∈ authorsOf m) (hpos : 0 < st.need a) (hset : st.aset r a = false) :
    needSum m (assignOne r st a) < needSum m st := by
  unfold assignOne
  rw [if_neg (by omega), if_neg (by rw [hset]; simp)]
  exact sum_map_dec st.need a _ (List.nodup_dedup _) (List.mem_dedup.mpr hmem) hpos

theorem needSum_foldAssign_lt (m : List (Str × List Str)) (r : Str) :
    ∀ (l : List Str) (st : GState), (∀ x ∈ l, x ∈ authorsOf m) →
      (∃ a ∈ l, 0 < st.need a ∧ st.aset r a = false) →
      needSum m (l.foldl (assignOne r) st) < needSum m st := by
  intro l
  induction l with
  | nil =>
    rintro st _ ⟨a, ha, _⟩
    cases ha
  | cons x rest ih =>
    rintro st hsub ⟨a, ha, hpos, hset⟩
    rw [List.foldl_cons]
    by_cases hq : 0 < st.need x ∧ st.aset r x = false
    · have h1 : needSum m (assignOne r st x) < needSum m st :=
        needSum_assignOne_lt m r st x (hsub x (List.mem_cons_self _ _)) hq.1 hq.2
      exact lt_of_le_of_lt (needSum_foldAssign_le m r rest _) h1
    · have hx : assignOne r st x = st := by
        unfold assignOne
        by_cases h0 : st.need x = 0
        · rw [if_pos h0]
        · rcases not_and_or.mp hq with h | h
          · omega
          · rw [if_neg h0, if_pos (Bool.not_eq_false _ ▸ h)]
      rw [hx]
      refine ih st (fun y hy => hsub y (List.mem_cons_of_mem _ hy)) ⟨a, ?_, hpos, hset⟩
      rcases List.mem_cons.mp ha with hax | har
      · subst hax
        exact absurd ⟨hpos, hset⟩ hq
      · exact har

theorem needSum_assignRelay_lt (m : List (Str × List Str)) (st : GState) (r : Str)
    (hg : 0 < gainOf m st r) : needSum m (assignRelay m st r) < needSum m st := by
  unfold gainOf at hg
  rw [List.countP_pos] at hg
  obtain ⟨a, ha, hpa⟩ := hg
  simp only [Bool.and_eq_true, decide_eq_true_eq, Bool.not_eq_true'] at hpa
  show needSum m ((lookupAL m r).foldl (assignOne r) st) < needSum m st
  exact needSum_foldAssign_lt m r _ st (fun x hx => lookupAL_sub_authors m r x hx)
    ⟨a, ha, hpa.1, hpa.2⟩

theorem greedyLoop_stuck_id (m : List (Str × List Str)) (st : GState) (h : isStuck m st) :
    ∀ fuel, greedyLoop m fuel st = st := by
  intro fuel
  cases fuel with
  | zero => rfl
  | succ f =>
    show greedyLoop m (Nat.succ f) st = st
    by_cases hd : needsDone m st = true
    · simp only [greedyLoop]
      rw [if_pos hd]
    · rcases h with hh | hh
      · exact absurd hh hd
      · simp only [greedyLoop]
        rw [if_neg hd, if_pos hh]

theorem greedyLoop_add (m : List (Str × List Str)) :
    ∀ (f g : Nat) (st : GState),
      greedyLoop m (f + g) st = greedyLoop m g (greedyLoop m f st) := by
  intro f
  induction f with
  | zero =>
    intro g st
    rw [Nat.zero_add]
    rfl
  | succ f ih =>
    intro g st
    by_cases hstuck : isStuck m st
    · simp only [greedyLoop_stuck_id m st hstuck]
    · have hd : ¬ needsDone m st = true := fun hh => hstuck (Or.inl hh)
      have hb : ¬ ((pickBest (keysOf m) (gainOf m st)).2 = 0
          ∨ (pickBest (keysOf m) (gainOf m st)).1 = []) := by
        rintro (h | h)
        · exact hstuck (Or.inr (Or.inl h))
        · exact hstuck (Or.inr (Or.inr h))
      have hstep : ∀ fuel, greedyLoop m (fuel + 1) st
          = greedyLoop m fuel (assignRelay m st (pickBest (keysOf m) (gainOf m st)).1) := by
        intro fuel
        show greedyLoop m (Nat.succ fuel) st = _
        simp only [greedyLoop]
        rw [if_neg hd, if_neg hb]
      rw [show Nat.succ f + g = (f + g) + 1 by omega, hstep (f + g), hstep f, ih]

theorem greedyLoop_isStuck (m : List (Str × List Str)) :
    ∀ (fuel : Nat) (st : GState), needSum m st < fuel → isStuck m (greedyLoop m fuel st) := by
  intro fuel
  induction fuel with
  | zero =>
    intro st h
    omega
  | succ f ih =>
    intro st h
    by_cases hd : needsDone m st = true
    · rw [show greedyLoop m (Nat.succ f) st = st from by
        simp only [greedyLoop]; rw [if_pos hd]]
      exact Or.inl hd
    · by_cases hb : (pickBest (keysOf m) (gainOf m st)).2 = 0
          ∨ (pickBest (keysOf m) (gainOf m st)).1 = []
      · rw [show greedyLoop m (Nat.succ f) st = st from by
          simp only [greedyLoop]; rw [if_neg hd, if_pos hb]]
        exact Or.inr hb
      · have hg : 0 < (pickBest (keysOf m) (gainOf m st)).2 := by
          rcases Nat.eq_zero_or_pos (pickBest (keysOf m) (gainOf m st)).2 with h0 | h0
          · exact absurd (Or.inl h0) hb
          · exact h0
        have hgain : 0 < gainOf m st (pickBest (keysOf m) (gainOf m st)).1 := by
          have h2 := (pickBest_pos _ _ hg).2
          omega
        have hstep : greedyLoop m (Nat.succ f) st
            = greedyLoop m f (assignRelay m st (pickBest (keysOf m) (gainOf m st)).1) := by
          simp only [greedyLoop]
          rw [if_neg hd, if_neg hb]
        rw [hstep]
        have hlt := needSum_assignRelay_lt m st _ hgain
        exact ih _ (by omega)

theorem foldNeed_eq (R : Nat) :
    ∀ (l : List Str) (f : Str → Nat) (a : Str),
      (l.foldl
          (fun need x => if need x = 0 then (fun y => if y = x then R else need y) else need)
          f) a
        = if f a = 0 ∧ a ∈ l then R else f a := by
  intro l
  induction l with
  | nil =>
    intro f a
    rw [if_neg (by simp)]
    rfl
  | cons x rest ih =>
    intro f a
    rw [List.foldl_cons]
    by_cases hx : f x = 0
    · rw [if_pos hx, ih]
      by_cases hax : a = x
      · subst hax
        simp [hx]
      · rw [if_neg hax]
        by_cases hc : f a = 0 ∧ a ∈ rest
        · rw [if_pos hc, if_pos ⟨hc.1, List.mem_cons_of_mem _ hc.2⟩]
        · rw [if_neg hc, if_neg]
          rintro ⟨h1, h2⟩
          rcases List.mem_cons.mp h2 with h3 | h3
          · exact hax h3
          · exact hc ⟨h1, h3⟩
    · rw [if_neg hx, ih]
      by_cases hc : f a = 0 ∧ a ∈ rest
      · rw [if_pos hc, if_pos ⟨hc.1, List.mem_cons_of_mem _ hc.2⟩]
      · rw [if_neg hc, if_neg]
        rintro ⟨h1, h2⟩
        rcases List.mem_cons.mp h2 with h3 | h3
        · subst h3
          exact hx h1
        · exact hc ⟨h1, h3⟩

theorem initNeed_eq (m : List (Str × List Str)) (R : Nat) (a : Str) :
    initNeed m R a = if a ∈ authorsOf m then R else 0 := by
  unfold initNeed
  rw [foldNeed_eq]
  simp

theorem needSum_init_le (m : List (Str × List Str)) (R : Nat) :
    needSum m (greedyInit m R) ≤ R * (authorsOf m).dedup.length := by
  unfold needSum greedyInit
  dsimp only
  have hsum := List.sum_le_card_nsmul ((authorsOf m).dedup.map (initNeed m R)) R (by
    intro x hx
    obtain ⟨y, _, rfl⟩ := List.mem_map.mp hx
    rw [initNeed_eq]
    split_ifs
    · exact le_rfl
    · exact Nat.zero_le R)
  rw [List.length_map, smul_eq_mul, Nat.mul_comm] at hsum
  exact hsum

theorem greedyFinal_isStuck (m : List (Str × List Str)) (R : Nat) :
    isStuck m (greedyFinalState m R) := by
  unfold greedyFinalState
  apply greedyLoop_isStuck
  unfold greedyFuel
  have := needSum_init_le m R
  omega

theorem greedyLoop_fuel_stable (m : List (Str × List Str)) (R : Nat) (extra : Nat) :
    greedyLoop m (greedyFuel m R + extra) (greedyInit m R) = greedyFinalState m R := by
  rw [greedyLoop_add]
  exact greedyLoop_stuck_id m _ (greedyFinal_isStuck m R) extra

theorem assignRelay_selected (m : List (Str × List Str)) (st : GState) (r : Str) :
    (assignRelay m st r).selected = st.selected ++ [r] := by
  show ((lookupAL m r).foldl (assignOne r) st).selected ++ [r] = st.selected ++ [r]
  rw [foldAssign_selected]

theorem assignRelay_need_le (m : List (Str × List Str)) (st : GState) (r x : Str) :
    (assignRelay m st r).need x ≤ st.need x := by
  show ((lookupAL m r).foldl (assignOne r) st).need x ≤ st.need x
  exact foldAssign_need_le r _ st x

theorem assignRelay_aset_mono (m : List (Str × List Str)) (st : GState) (r r' b : Str)
    (h : st.aset r' b = true) : (assignRelay m st r).aset r' b = true := by
  show ((lookupAL m r).foldl (assignOne r) st).aset r' b = true
  exact foldAssign_aset_mono r _ st r' b h

theorem assignRelay_covers (m : List (Str × List Str)) (st : GState) (r : Str) :
    ∀ a ∈ lookupAL m r,
      (assignRelay m st r).need a = 0 ∨ (assignRelay m st r).aset r a = true := by
  intro a ha
  show ((lookupAL m r).foldl (assignOne r) st).need a = 0
    ∨ ((lookupAL m r).foldl (assignOne r) st).aset r a = true
  exact foldAssign_covers r _ st a ha

theorem greedyLoop_selection_inv (m : List (Str × List Str)) :
    ∀ (fuel : Nat) (st : GState),
      (∀ r ∈ st.selected, ∀ a ∈ lookupAL m r, st.need a = 0 ∨ st.aset r a = true) →
      st.selected.Nodup →
      ((∀ r ∈ (greedyLoop m fuel st).selected, ∀ a ∈ lookupAL m r,
          (greedyLoop m fuel st).need a = 0 ∨ (greedyLoop m fuel st).aset r a = true)
        ∧ (greedyLoop m fuel st).selected.Nodup) := by
  intro fuel
  induction fuel with
  | zero => intro st h1 h2; exact ⟨h1, h2⟩
  | succ f ih =>
    intro st h1 h2
    by_cases hd : needsDone m st = true
    · rw [show greedyLoop m (Nat.succ f) st = st from by
        simp only [greedyLoop]; rw [if_pos hd]]
      exact ⟨h1, h2⟩
    · by_cases hb : (pickBest (keysOf m) (gainOf m st)).2 = 0
          ∨ (pickBest (keysOf m) (gainOf m st)).1 = []
      · rw [show greedyLoop m (Nat.succ f) st = st from by
          simp only [greedyLoop]; rw [if_neg hd, if_pos hb]]
        exact ⟨h1, h2⟩
      · have hstep : greedyLoop m (Nat.succ f) st
            = greedyLoop m f (assignRelay m st (pickBest (keysOf m) (gainOf m st)).1) := by
          simp only [greedyLoop]
          rw [if_neg hd, if_neg hb]
        rw [hstep]
        have hg : 0 < (pickBest (keysOf m) (gainOf m st)).2 := by
          rcases Nat.eq_zero_or_pos (pickBest (keysOf m) (gainOf m st)).2 with h0 | h0
          · exact absurd (Or.inl h0) hb
          · exact h0
        have hppos := pickBest_pos _ _ hg
        have hnotsel : (pickBest (keysOf m) (gainOf m st)).1 ∉ st.selected := by
          intro hmem
          have hzero : gainOf m st (pickBest (keysOf m) (gainOf m st)).1 = 0 := by
            rw [show gainOf m st (pickBest (keysOf m) (gainOf m st)).1
                = List.countP
                    (fun a => decide (0 < st.need a)
                      && ! st.aset (pickBest (keysOf m) (gainOf m st)).1 a)
                    (lookupAL m (pickBest (keysOf m) (gainOf m st)).1) from rfl,
              List.countP_eq_zero]
            intro a ha
            rcases h1 _ hmem a ha with h0 | h0
            · simp [h0]
            · simp [h0]
          omega
        apply ih
        · intro r' hr' a ha
          rw [assignRelay_selected] at hr'
          rcases List.mem_append.mp hr' with hsel | hnew
          · rcases h1 r' hsel a ha with h0 | h0
            · exact Or.inl (Nat.le_zero.mp (h0 ▸ assignRelay_need_le m st _ a))
            · exact Or.inr (assignRelay_aset_mono m st _ r' a h0)
          · have hr'eq : r' = (pickBest (keysOf m) (gainOf m st)).1 := List.mem_singleton.mp hnew
            subst hr'eq
            exact assignRelay_covers m st _ a ha
        · rw [assignRelay_selected]
          rw [List.nodup_append]
          exact ⟨h2, List.nodup_singleton _,
            fun x hx hx' => hnotsel (List.mem_singleton.mp hx' ▸ hx)⟩

/-- C10 (amended): the greedy selection loop reaches its exit condition
within the provided fuel (extra fuel does not change the result), and
the internal selection order never selects the same map key twice: once
selected, every author a relay covers has need zero or is assigned to
it, its gain stays zero, and it is never picked again.  (The returned
list maps this order through URL re-canonicalization, which can merge
two distinct keys into equal strings; see the counterexample.) -/
theorem greedy_terminates_and_selects_once (m : List (Str × List Str)) (R : Nat) :
    isStuck m (greedyFinalState m R)
      ∧ (∀ extra : Nat,
          greedyLoop m (greedyFuel m R + extra) (greedyInit m R) = greedyFinalState m R)
      ∧ (greedyFinalState m R).selected.Nodup := by
  refine ⟨greedyFinal_isStuck m R, greedyLoop_fuel_stable m R, ?_⟩
  exact (greedyLoop_selection_inv m (greedyFuel m R) (greedyInit m R)
    (by intro r hr; cases hr) List.nodup_nil).2

/-- Counterexample to C10 as stated: two distinct map keys denoting the
same endpoint (one with a canonical-output trailing slash) are each
selected once, but the returned selected-endpoint list re-canonicalizes
them to the same string, so the returned list repeats an endpoint. -/
theorem greedy_selected_list_can_repeat :
    (greedySelectAndAssignN
        [("wss://a.example".toList, ["k1".toList]),
          ("wss://a.example/".toList, ["k2".toList])] 1).1
      = ["wss://a.example".toList, "wss://a.example".toList]
      ∧ ¬ (greedySelectAndAssignN
          [("wss://a.example".toList, ["k1".toList]),
            ("wss://a.example/".toList, ["k2".toList])] 1).1.Nodup :=
  ⟨by decide, by decide⟩

/-! ### Assignment bookkeeping for the replica bound (C2) -/

theorem lookupAL_of_nodup :
    ∀ (m : List (Str × List Str)), (keysOf m).Nodup →
      ∀ p ∈ m, lookupAL m p.1 = p.2 := by
  intro m
  induction m with
  | nil => intro _ p hp; cases hp
  | cons q rest ih =>
    intro hnd p hp
    have hnd' : q.1 ∉ keysOf rest ∧ (keysOf rest).Nodup := by
      unfold keysOf at hnd ⊢
      rw [List.map_cons] at hnd
      exact List.nodup_cons.mp hnd
    rcases List.mem_cons.mp hp with hpq | hpr
    · subst hpq
      unfold lookupAL
      rw [if_pos rfl]
    · unfold lookupAL
      rw [if_neg, ih hnd'.2 p hpr]
      intro hh
      exact hnd'.1 (hh ▸ List.mem_map_of_mem Prod.fst hpr)

theorem lookupAL_not_mem :
    ∀ (m : List (Str × List Str)) (r : Str), r ∉ keysOf m → lookupAL m r = [] := by
  intro m
  induction m with
  | nil => intro r _; rfl
  | cons q rest ih =>
    intro r hr
    unfold lookupAL
    rw [if_neg, ih r]
    · intro hh
      exact hr (List.mem_cons_of_mem _ hh)
    · intro hh
      exact hr (hh ▸ List.mem_cons_self _ _)

theorem mem_authorsOf {m : List (Str × List Str)} {p : Str × List Str} {a : Str}
    (hp : p ∈ m) (ha : a ∈ p.2) : a ∈ authorsOf m := by
  unfold authorsOf
  rw [List.mem_flatten]
  exact ⟨p.2, List.mem_map_of_mem Prod.snd hp, ha⟩

theorem countP_aset_insert (r a : Str) (g : Str → Str → Bool) :
    ∀ (m : List (Str × List Str)), (keysOf m).Nodup → r ∈ keysOf m → g r a = false →
      m.countP (fun p => if p.1 = r ∧ a = a then true else g p.1 a)
        = m.countP (fun p => g p.1 a) + 1 := by
  intro m
  induction m with
  | nil => intro _ hr; cases hr
  | cons q rest ih =>
    intro hnd hr hga
    have hnd' : q.1 ∉ keysOf rest ∧ (keysOf rest).Nodup := by
      unfold keysOf at hnd ⊢
      rw [List.map_cons] at hnd
      exact List.nodup_cons.mp hnd
    rw [List.countP_cons, List.countP_cons]
    by_cases hq : q.1 = r
    · have hrest : rest.countP (fun p => if p.1 = r ∧ a = a then true else g p.1 a)
          = rest.countP (fun p => g p.1 a) := by
        apply List.countP_congr
        intro p hp
        have hne : p.1 ≠ r := by
          intro hh
          exact hnd'.1 ((hq.trans hh.symm) ▸ List.mem_map_of_mem Prod.fst hp)
        rw [if_neg (by rintro ⟨hh, _⟩; exact hne hh)]
      have hheadnew : (if q.1 = r ∧ a = a then true else g q.1 a) = true := by
        rw [if_pos ⟨hq, rfl⟩]
      have hheadold : g q.1 a = false := by
        rw [hq, hga]
      rw [hrest, hheadnew, hheadold]
      simp
    · have hr' : r ∈ keysOf rest := by
        rcases List.mem_cons.mp hr with hh | hh
        · exact absurd hh.symm hq
        · exact hh
      have hhead : (if q.1 = r ∧ a = a then true else g q.1 a) = g q.1 a := by
        rw [if_neg (by rintro ⟨hh, _⟩; exact hq hh)]
      rw [hhead, ih hnd'.2 hr' hga]
      omega

theorem K_assignOne (m : List (Str × List Str)) (R : Nat) (hnd : (keysOf m).Nodup)
    (r : Str) (hr : r ∈ keysOf m) (a : Str) (haL : a ∈ lookupAL m r) (st : GState)
    (Kha : ∀ r' b, b ∈ st.assigned r' ↔ st.aset r' b = true)
    (Kh2 : ∀ r' b, st.aset r' b = true → b ∈ lookupAL m r')
    (Kh1 : ∀ b, st.need b + m.countP (fun p => st.aset p.1 b)
        = if b ∈ authorsOf m then R else 0) :
    (∀ r' b, b ∈ (assignOne r st a).assigned r' ↔ (assignOne r st a).aset r' b = true)
      ∧ (∀ r' b, (assignOne r st a).aset r' b = true → b ∈ lookupAL m r')
      ∧ (∀ b, (assignOne r st a).need b + m.countP (fun p => (assignOne r st a).aset p.1 b)
          = if b ∈ authorsOf m then R else 0) := by
  unfold assignOne
  split_ifs with hn0 has
  · exact ⟨Kha, Kh2, Kh1⟩
  · exact ⟨Kha, Kh2, Kh1⟩
  · dsimp only
    refine ⟨?_, ?_, ?_⟩
    · intro r' b
      by_cases hrr : r' = r
      · subst hrr
        rw [if_pos rfl]
        by_cases hba : b = a
        · subst hba
          rw [if_pos ⟨rfl, rfl⟩, List.mem_append, List.mem_singleton]
          simp
        · rw [if_neg (by rintro ⟨_, hh⟩; exact hba hh), List.mem_append, List.mem_singleton]
          constructor
          · rintro (hh | hh)
            · exact (Kha _ b).mp hh
            · exact absurd hh hba
          · intro hh
            exact Or.inl ((Kha _ b).mpr hh)
      · rw [if_neg hrr, if_neg (by rintro ⟨hh, _⟩; exact hrr hh)]
        exact Kha r' b
    · intro r' b hb
      by_cases hc : r' = r ∧ b = a
      · rcases hc with ⟨h1', h2'⟩
        subst h1'
        subst h2'
        exact haL
      · rw [if_neg hc] at hb
        exact Kh2 r' b hb
    · intro b
      by_cases hba : b = a
      · subst hba
        rw [if_pos rfl]
        have hfalse : st.aset r b = false := Bool.eq_false_iff.mpr has
        have hcnt := countP_aset_insert r b st.aset m hnd hr hfalse
        rw [hcnt]
        have hK := Kh1 b
        have hmem : b ∈ authorsOf m := lookupAL_sub_authors m r b haL
        rw [if_pos hmem] at hK ⊢
        omega
      · rw [if_neg hba]
        have hcnt : m.countP (fun p => if p.1 = r ∧ b = a then true else st.aset p.1 b)
            = m.countP (fun p => st.aset p.1 b) :=
          List.countP_congr (fun p hp => by
            rw [if_neg (by rintro ⟨_, hh⟩; exact hba hh)])
        rw [hcnt]
        exact Kh1 b

theorem K_foldAssign (m : List (Str × List Str)) (R : Nat) (hnd : (keysOf m).Nodup)
    (r : Str) (hr : r ∈ keysOf m) :
    ∀ (l : List Str), (∀ a ∈ l, a ∈ lookupAL m r) → ∀ (st : GState),
      (∀ r' b, b ∈ st.assigned r' ↔ st.aset r' b = true) →
      (∀ r' b, st.aset r' b = true → b ∈ lookupAL m r') →
      (∀ b, st.need b + m.countP (fun p => st.aset p.1 b)
          = if b ∈ authorsOf m then R else 0) →
      (∀ r' b, b ∈ (l.foldl (assignOne r) st).assigned r'
          ↔ (l.foldl (assignOne r) st).aset r' b = true)
        ∧ (∀ r' b, (l.foldl (assignOne r) st).aset r' b = true → b ∈ lookupAL m r')
        ∧ (∀ b, (l.foldl (assignOne r) st).need b
              + m.countP (fun p => (l.foldl (assignOne r) st).aset p.1 b)
            = if b ∈ authorsOf m then R else 0) := by
  intro l
  induction l with
  | nil =>
    intro _ st h1 h2 h3
    exact ⟨h1, h2, h3⟩
  | cons a rest ih =>
    intro hsub st h1 h2 h3
    rw [List.foldl_cons]
    obtain ⟨g1, g2, g3⟩ :=
      K_assignOne m R hnd r hr a (hsub a (List.mem_cons_self _ _)) st h1 h2 h3
    exact ih (fun x hx => hsub x (List.mem_cons_of_mem _ hx)) (assignOne r st a) g1 g2 g3

theorem K_assignRelay (m : List (Str × List Str)) (R : Nat) (hnd : (keysOf m).Nodup)
    (r : Str) (hr : r ∈ keysOf m) (st : GState)
    (h1 : ∀ r' b, b ∈ st.assigned r' ↔ st.aset r' b = true)
    (h2 : ∀ r' b, st.aset r' b = true → b ∈ lookupAL m r')
    (h3 : ∀ b, st.need b + m.countP (fun p => st.aset p.1 b)
        = if b ∈ authorsOf m then R else 0) :
    (∀ r' b, b ∈ (assignRelay m st r).assigned r' ↔ (assignRelay m st r).aset r' b = true)
      ∧ (∀ r' b, (assignRelay m st r).aset r' b = true → b ∈ lookupAL m r')
      ∧ (∀ b, (assignRelay m st r).need b
            + m.countP (fun p => (assignRelay m st r).aset p.1 b)
          = if b ∈ authorsOf m then R else 0) :=
  K_foldAssign m R hnd r hr (lookupAL m r) (fun _ ha => ha) st h1 h2 h3

theorem K_greedyLoop (m : List (Str × List Str)) (R : Nat) (hnd : (keysOf m).Nodup) :
    ∀ (fuel : Nat) (st : GState),
      (∀ r' b, b ∈ st.assigned r' ↔ st.aset r' b = true) →
      (∀ r' b, st.aset r' b = true → b ∈ lookupAL m r') →
      (∀ b, st.need b + m.countP (fun p => st.aset p.1 b)
          = if b ∈ authorsOf m then R else 0) →
      (∀ r' b, b ∈ (greedyLoop m fuel st).assigned r'
          ↔ (greedyLoop m fuel st).aset r' b = true)
        ∧ (∀ r' b, (greedyLoop m fuel st).aset r' b = true → b ∈ lookupAL m r')
        ∧ (∀ b, (greedyLoop m fuel st).need b
              + m.countP (fun p => (greedyLoop m fuel st).aset p.1 b)
            = if b ∈ authorsOf m then R else 0) := by
  intro fuel
  induction fuel with
  | zero =>
    intro st h1 h2 h3
    exact ⟨h1, h2, h3⟩
  | succ f ih =>
    intro st h1 h2 h3
    by_cases hd : needsDone m st = true
    · rw [show greedyLoop m (Nat.succ f) st = st from by
        simp only [greedyLoop]; rw [if_pos hd]]
      exact ⟨h1, h2, h3⟩
    · by_cases hb : (pickBest (keysOf m) (gainOf m st)).2 = 0
          ∨ (pickBest (keysOf m) (gainOf m st)).1 = []
      · rw [show greedyLoop m (Nat.succ f) st = st from by
          simp only [greedyLoop]; rw [if_neg hd, if_pos hb]]
        exact ⟨h1, h2, h3⟩
      · have hg : 0 < (pickBest (keysOf m) (gainOf m st)).2 := by
          rcases Nat.eq_zero_or_pos (pickBest (keysOf m) (gainOf m st)).2 with h0 | h0
          · exact absurd (Or.inl h0) hb
          · exact h0
        have hrmem := (pickBest_pos _ _ hg).1
        have hstep : greedyLoop m (Nat.succ f) st
            = greedyLoop m f (assignRelay m st (pickBest (keysOf m) (gainOf m st)).1) := by
          simp only [greedyLoop]
          rw [if_neg hd, if_neg hb]
        rw [hstep]
        obtain ⟨g1, g2, g3⟩ := K_assignRelay m R hnd _ hrmem st h1 h2 h3
        exact ih _ g1 g2 g3

theorem mem_uniqueSorted (a : Str) (l : List Str) : a ∈ uniqueSorted l ↔ a ∈ l := by
  unfold uniqueSorted
  rw [(sortStrs_perm l.dedup).mem_iff, List.mem_dedup]

/-- C2: for every relay-to-authors map with distinct, non-empty keys and
every replication factor R at least 1, when the greedy replica assigner
terminates every author whose write-index degree is at least R is
assigned to exactly R distinct endpoints, and every author whose degree
is below R is assigned to exactly degree-many endpoints: the number of
map entries whose returned assignment list contains the author equals
min(degree, R), and endpoints outside the map receive the empty
assignment list. -/
theorem greedy_replica_bound (m : List (Str × List Str)) (R : Nat)
    (hR : 1 ≤ R) (hnd : (keysOf m).Nodup) (hne : [] ∉ keysOf m) :
    (∀ a, m.countP (fun p => decide (a ∈ (greedySelectAndAssignN m R).2 p.1))
        = min (degreeOf m a) R)
      ∧ (∀ r, r ∉ keysOf m → (greedySelectAndAssignN m R).2 r = []) := by
  have init1 : ∀ r' b, b ∈ (greedyInit m R).assigned r'
      ↔ (greedyInit m R).aset r' b = true := by
    intro r' b
    simp [greedyInit]
  have init2 : ∀ r' b, (greedyInit m R).aset r' b = true → b ∈ lookupAL m r' := by
    intro r' b hb
    exact absurd hb (by simp [greedyInit])
  have init3 : ∀ b, (greedyInit m R).need b
      + m.countP (fun p => (greedyInit m R).aset p.1 b)
      = if b ∈ authorsOf m then R else 0 := by
    intro b
    have hc : m.countP (fun p => (greedyInit m R).aset p.1 b) = 0 :=
      List.countP_eq_zero.mpr (fun x _ => by simp [greedyInit])
    rw [hc, Nat.add_zero]
    exact initNeed_eq m R b
  obtain ⟨K1, K2, K3⟩ :
      (∀ r' b, b ∈ (greedyFinalState m R).assigned r'
          ↔ (greedyFinalState m R).aset r' b = true)
        ∧ (∀ r' b, (greedyFinalState m R).aset r' b = true → b ∈ lookupAL m r')
        ∧ (∀ b, (greedyFinalState m R).need b
              + m.countP (fun p => (greedyFinalState m R).aset p.1 b)
            = if b ∈ authorsOf m then R else 0) :=
    K_greedyLoop m R hnd (greedyFuel m R) (greedyInit m R) init1 init2 init3
  have hstuck2 : needsDone m (greedyFinalState m R) = true
      ∨ (pickBest (keysOf m) (gainOf m (greedyFinalState m R))).2 = 0 := by
    rcases greedyFinal_isStuck m R with h | h | h
    · exact Or.inl h
    · exact Or.inr h
    · rcases Nat.eq_zero_or_pos
          (pickBest (keysOf m) (gainOf m (greedyFinalState m R))).2 with h0 | h0
      · exact Or.inr h0
      · exact absurd (h ▸ (pickBest_pos _ _ h0).1) hne
  have hterm : ∀ a, (greedyFinalState m R).need a = 0
      ∨ ∀ p ∈ m, a ∈ p.2 → (greedyFinalState m R).aset p.1 a = true := by
    intro a
    rcases Nat.eq_zero_or_pos ((greedyFinalState m R).need a) with h0 | h0
    · exact Or.inl h0
    · right
      intro p hp hap
      rcases hstuck2 with hdone | hzero
      · exfalso
        simp only [needsDone, List.all_eq_true, decide_eq_true_eq] at hdone
        have := hdone a (mem_authorsOf hp hap)
        omega
      · have hg := pickBest_zero _ _ hzero p.1
          (by unfold keysOf; exact List.mem_map_of_mem Prod.fst hp)
        unfold gainOf at hg
        have hmem : a ∈ lookupAL m p.1 := by
          rw [lookupAL_of_nodup m hnd p hp]
          exact hap
        have hno := List.countP_eq_zero.mp hg a hmem
        simp only [Bool.and_eq_true, decide_eq_true_eq, Bool.not_eq_true'] at hno
        rcases Bool.eq_false_or_eq_true ((greedyFinalState m R).aset p.1 a) with ht | hf
        · exact ht
        · exact absurd ⟨h0, hf⟩ hno
  have hconv : ∀ a, m.countP (fun p => decide (a ∈ (greedySelectAndAssignN m R).2 p.1))
      = m.countP (fun p => (greedyFinalState m R).aset p.1 a) := by
    intro a
    apply List.countP_congr
    intro p _
    show decide (a ∈ (greedySelectAndAssignN m R).2 p.1) = true
      ↔ (greedyFinalState m R).aset p.1 a = true
    rw [decide_eq_true_eq,
      show (greedySelectAndAssignN m R).2 p.1
        = uniqueSorted ((greedyFinalState m R).assigned p.1) from rfl,
      mem_uniqueSorted]
    exact K1 p.1 a
  have hled : ∀ a, m.countP (fun p => (greedyFinalState m R).aset p.1 a)
      ≤ degreeOf m a := by
    intro a
    unfold degreeOf
    apply List.countP_mono_left
    intro p hp hset
    rw [decide_eq_true_eq]
    have hmem := K2 p.1 a hset
    rw [lookupAL_of_nodup m hnd p hp] at hmem
    exact hmem
  constructor
  · intro a
    rw [hconv a]
    by_cases hA : a ∈ authorsOf m
    · have hK3 := K3 a
      rw [if_pos hA] at hK3
      rcases hterm a with hz | hall
      · have h1 := hled a
        omega
      · have hge : degreeOf m a
            ≤ m.countP (fun p => (greedyFinalState m R).aset p.1 a) := by
          unfold degreeOf
          apply List.countP_mono_left
          intro p hp hq
          exact hall p hp (by simpa using hq)
        have hle := hled a
        omega
    · have hK3 := K3 a
      rw [if_neg hA] at hK3
      have hd0 : degreeOf m a = 0 := by
        unfold degreeOf
        apply List.countP_eq_zero.mpr
        intro p hp h
        exact hA (mem_authorsOf hp (by simpa using h))
      omega
  · intro r hr
    have hempty : (greedyFinalState m R).assigned r = [] := by
      rw [List.eq_nil_iff_forall_not_mem]
      intro b hb
      have hmem := K2 r b ((K1 r b).mp hb)
      rw [lookupAL_not_mem m r hr] at hmem
      cases hmem
    show uniqueSorted ((greedyFinalState m R).assigned r) = []
    rw [hempty]
    rfl

/-- Witness for C2 at the three-relay scenario with replication two. -/
theorem greedy_replica_bound_witness :
    1 ≤ 2 ∧ (keysOf scenarioMap).Nodup ∧ [] ∉ keysOf scenarioMap ∧
      ((∀ a, scenarioMap.countP
            (fun p => decide (a ∈ (greedySelectAndAssignN scenarioMap 2).2 p.1))
          = min (degreeOf scenarioMap a) 2)
        ∧ (∀ r, r ∉ keysOf scenarioMap
            → (greedySelectAndAssignN scenarioMap 2).2 r = [])) :=
  ⟨by decide, by decide, by decide,
    greedy_replica_bound scenarioMap 2 (by decide) (by decide) (by decide)⟩
